import Mathlib

/-!
Verification of the session-identity / progress core of the
social-engineering training simulator.

The Python sources are shallowly embedded:
* Python `int` is `Int` (arbitrary precision), counters that the code only
  ever sets to non-negative values are still `Int` to match the source.
* Python `str` values that only ever get compared for equality (tactic
  names, session ids, emails) are `String`; strings the token codec slices
  character by character are `List Char`.
* Python `bytes` is `List Nat` (each element a byte value).
* Database rows are records in explicit lists; SQLAlchemy queries become
  `List.find?` / list updates; a request handler that can raise an
  `HTTPException` returns the (unchanged) state it had at the raise point
  together with the error.
* `hmac.new(secret, payload, sha256).hexdigest()` is an abstract function
  `mac : List Nat → String` threaded through the codec; properties that
  need it (fixed output alphabet, collision freeness at a point) are
  explicit hypotheses.
* `uuid.uuid4()` and `time.time()` are explicit parameters (`fresh`,
  `now`): the caller supplies the freshly drawn uuid / current clock.
-/

namespace Sim

/-! ### app/services/scoring.py — constants and score arithmetic -/

def INITIAL_RISK_SCORE : Int := 50
def MIN_SCORE : Int := 0
def MAX_SCORE : Int := 100

/-- Python `apply_score_delta(current, delta)`: apply delta and clamp to 0..100
(`max(MIN_SCORE, min(MAX_SCORE, current + delta))`). -/
def apply_score_delta (current delta : Int) : Int :=
  max MIN_SCORE (min MAX_SCORE (current + delta))

/-- Modelled from the spec: `clamp(x, lo, hi)` as used in the sentence
"returns `clamp(current + delta, 0, 100)`". -/
def clampSpec (x lo hi : Int) : Int :=
  if x < lo then lo else if hi < x then hi else x

/-! ### app/schemas/stats.py — schemas used by the scoring service -/

structure TacticBreakdownSchema where
  tactic : String
  mistake_count : Int
deriving Repr, DecidableEq

structure TipSchema where
  tactic : String
  tip : String
deriving Repr, DecidableEq

structure AchievementSchema where
  id : String
  name_ru : String
  unlocked : Bool
deriving Repr, DecidableEq

/-! ### app/services/scoring.py — tips for weak tactics -/

/-- Python `TACTIC_TIPS`: insertion-ordered dict, tactic key → Russian tip text. -/
def TACTIC_TIPS : List (String × String) :=
  [("Urgency", "Насторожитесь, если требуют срочных действий. Настоящие сервисы редко давят по времени."),
   ("Authority", "Проверяйте личность тех, кто представляется IT, HR или руководством. Перезванивайте по известному номеру, не по ссылке."),
   ("Scarcity", "«Осталось 5 мест» и ограниченные предложения — частый приём. Не спешите, проверьте информацию."),
   ("Reciprocity", "Небольшая услуга создаёт ощущение долга. Вы не обязаны никому отдавать данные из-за этого."),
   ("Fear", "Сообщения о блокировке или угрозах часто поддельные. Заходите через официальное приложение или сайт, не по ссылке из письма.")]

/-- Python `TACTIC_TIPS.get(key)` — first match in insertion order. -/
def tacticTipGet (key : String) : Option String :=
  (TACTIC_TIPS.find? (fun kv => kv.1 = key)).map (·.2)

/-- One step of Python's
`sorted(breakdown, key=lambda x: x.mistake_count, reverse=True)`:
stable insertion into an already descending-sorted list. Processing the
original list from the right with `foldr`, `x` is earlier in the original
than everything already inserted, so stability places `x` in front of the
first element whose key is less than or equal to `x`'s. -/
def insertDescByCount (x : TacticBreakdownSchema) :
    List TacticBreakdownSchema → List TacticBreakdownSchema
  | [] => [x]
  | y :: ys =>
    if y.mistake_count ≤ x.mistake_count then
      x :: y :: ys
    else
      y :: insertDescByCount x ys

/-- Python `sorted(breakdown, key=lambda x: x.mistake_count, reverse=True)`
(a stable descending sort by `mistake_count`). -/
def sortedByCountDesc (l : List TacticBreakdownSchema) : List TacticBreakdownSchema :=
  l.foldr insertDescByCount []

/-- First loop of `get_tips_for_weak_tactics`: walk the sorted breakdown,
skip non-positive mistake counts and already-seen tactics, append the tip
for each remaining tactic, break once `len(tips) >= max_tips`.
Returns the accumulated tips and the `seen` set (as a list). -/
def tipsLoopSorted (max_tips : Nat) :
    List TacticBreakdownSchema → List TipSchema → List String →
    List TipSchema × List String
  | [], tips, seen => (tips, seen)
  | t :: rest, tips, seen =>
    if t.mistake_count ≤ 0 then
      tipsLoopSorted max_tips rest tips seen
    else if t.tactic ∈ seen then
      tipsLoopSorted max_tips rest tips seen
    else
      let seen' := t.tactic :: seen
      let tips' :=
        match tacticTipGet t.tactic with
        | some txt => tips ++ [⟨t.tactic, txt⟩]
        | none => tips
      if max_tips ≤ tips'.length then (tips', seen')
      else tipsLoopSorted max_tips rest tips' seen'

/-- Second loop of `get_tips_for_weak_tactics`: pad from `TACTIC_TIPS` in
insertion order, skipping seen tactics, stopping at `max_tips`. -/
def tipsPadLoop (max_tips : Nat) :
    List (String × String) → List TipSchema → List String → List TipSchema
  | [], tips, _ => tips
  | (tac, txt) :: rest, tips, seen =>
    if max_tips ≤ tips.length then tips
    else if tac ∈ seen then tipsPadLoop max_tips rest tips seen
    else tipsPadLoop max_tips rest (tips ++ [⟨tac, txt⟩]) (tac :: seen)

/-- Python `get_tips_for_weak_tactics(breakdown, max_tips)`. -/
def get_tips_for_weak_tactics (breakdown : List TacticBreakdownSchema)
    (max_tips : Nat) : List TipSchema :=
  let res := tipsLoopSorted max_tips (sortedByCountDesc breakdown) [] []
  (tipsPadLoop max_tips TACTIC_TIPS res.1 res.2).take max_tips

/-! ### app/services/scoring.py — achievements -/

/-- A row of the `attempts` table as the scoring service sees it
(`is_safe`, `tactic` are the only attributes it reads). -/
structure AttemptView where
  is_safe : Bool
  tactic : String
deriving Repr, DecidableEq

/-- Loop body of `_max_consecutive_safe`: carry `(max_streak, current)`. -/
def maxConsecutiveSafeAux : List AttemptView → Nat → Nat → Nat
  | [], max_streak, _ => max_streak
  | a :: rest, max_streak, current =>
    if a.is_safe then
      maxConsecutiveSafeAux rest (max max_streak (current + 1)) (current + 1)
    else
      maxConsecutiveSafeAux rest max_streak 0

/-- Python `_max_consecutive_safe(attempts)`. -/
def max_consecutive_safe (attempts : List AttemptView) : Nat :=
  maxConsecutiveSafeAux attempts 0 0

/-- Python `_urgency_safe_count(attempts)`. -/
def urgency_safe_count (attempts : List AttemptView) : Nat :=
  (attempts.filter (fun a => a.tactic = "Urgency" ∧ a.is_safe = true)).length

/-- Python `compute_achievements(progress, attempts)` — only `correct_count` is
read from the progress row, so it is passed directly. -/
def compute_achievements (correct_count : Int) (attempts : List AttemptView) :
    List AchievementSchema :=
  let max_streak := max_consecutive_safe attempts
  let urgency_safe := urgency_safe_count attempts
  [⟨"no_click_hero", "Без клика", decide (3 ≤ max_streak)⟩,
   ⟨"phishing_detector", "Детектор фишинга", decide (5 ≤ correct_count)⟩,
   ⟨"calm_under_pressure", "Спокойствие под давлением", decide (2 ≤ urgency_safe)⟩]

/-! ### app/core/security.py — session token codec

`base64.urlsafe_b64encode` / `urlsafe_b64decode` are modelled down to the
byte level, including CPython's *lenient* `binascii.a2b_base64` semantics
(non-alphabet characters are discarded, the unused trailing bits of a
final partial group are ignored, a completed padding group ends decoding
and the remainder of the input is ignored, and a leftover partial group at
the end of input is an error). -/

/-- Value of a base64 character as `urlsafe_b64decode` sees it: the
urlsafe translation maps `-`→`+` and `_`→`/` first, so both alphabets are
accepted. -/
def b64val (c : Char) : Option Nat :=
  if 'A' ≤ c ∧ c ≤ 'Z' then some (c.toNat - 65)
  else if 'a' ≤ c ∧ c ≤ 'z' then some (c.toNat - 97 + 26)
  else if '0' ≤ c ∧ c ≤ '9' then some (c.toNat - 48 + 52)
  else if c = '+' ∨ c = '-' then some 62
  else if c = '/' ∨ c = '_' then some 63
  else none

/-- Urlsafe base64 alphabet character for a 6-bit value. -/
def b64char (v : Nat) : Char :=
  if v < 26 then Char.ofNat (65 + v)
  else if v < 52 then Char.ofNat (97 + (v - 26))
  else if v < 62 then Char.ofNat (48 + (v - 52))
  else if v = 62 then '-'
  else '_'

/-- Python `base64.urlsafe_b64encode(payload)` (padded with `=`). -/
def b64encodeBody : List Nat → List Char
  | b0 :: b1 :: b2 :: rest =>
    b64char (b0 / 4) :: b64char ((b0 % 4) * 16 + b1 / 16) ::
      b64char ((b1 % 16) * 4 + b2 / 64) :: b64char (b2 % 64) :: b64encodeBody rest
  | [b0, b1] =>
    [b64char (b0 / 4), b64char ((b0 % 4) * 16 + b1 / 16), b64char ((b1 % 16) * 4), '=']
  | [b0] =>
    [b64char (b0 / 4), b64char ((b0 % 4) * 16), '=', '=']
  | [] => []

/-- Python `.rstrip("=")`. -/
def rstripEq (l : List Char) : List Char :=
  (l.reverse.dropWhile (fun c => c = '=')).reverse

/-- Byte emitted when a base64 group ends after 2 data characters
(the low 4 bits of the second character are unused and ignored). -/
def b64emit2 (v1 v2 : Nat) : List Nat := [v1 * 4 + v2 / 16]

/-- Bytes emitted when a base64 group ends after 3 data characters
(the low 2 bits of the third character are unused and ignored). -/
def b64emit3 (v1 v2 v3 : Nat) : List Nat :=
  [v1 * 4 + v2 / 16, (v2 % 16) * 16 + v3 / 4]

/-- Bytes of a complete base64 group of 4 data characters. -/
def b64emit4 (v1 v2 v3 v4 : Nat) : List Nat :=
  [v1 * 4 + v2 / 16, (v2 % 16) * 16 + v3 / 4, (v3 % 4) * 64 + v4]

/-- CPython `binascii.a2b_base64` in its default non-strict mode
(as called by `base64.b64decode`), state = decoded bytes so far, the 6-bit
values of the current group, and the count of `=` seen for the current
group. A `=` after 3 data characters, or a second `=` after 2 data
characters, completes decoding (the rest of the input is ignored); a `=`
after 0 or 1 data characters is itself ignored; invalid characters are
discarded; input ending inside a partial group is an error. -/
def a2bBase64 : List Char → List Nat → List Nat → Nat → Option (List Nat)
  | [], acc, group, _ => if group.isEmpty then some acc else none
  | c :: rest, acc, group, pads =>
    if c = '=' then
      match group with
      | [v1, v2] =>
        if 2 ≤ pads + 1 then some (acc ++ b64emit2 v1 v2)
        else a2bBase64 rest acc group (pads + 1)
      | [v1, v2, v3] => some (acc ++ b64emit3 v1 v2 v3)
      | _ => a2bBase64 rest acc group pads
    else
      match b64val c with
      | none => a2bBase64 rest acc group pads
      | some v =>
        match group with
        | [v1, v2, v3] => a2bBase64 rest (acc ++ b64emit4 v1 v2 v3 v) [] 0
        | _ => a2bBase64 rest acc (group ++ [v]) 0

/-- Python `base64.urlsafe_b64decode(encoded)` (`None` = raised
`binascii.Error`, a `ValueError` the caller catches). -/
def urlsafe_b64decode (l : List Char) : Option (List Nat) :=
  a2bBase64 l [] [] 0

/-- The re-padding step of `verify_session_token`:
`pad = 4 - len(encoded) % 4; if pad != 4: encoded += "=" * pad`. -/
def repadB64 (encoded : List Char) : List Char :=
  let pad := 4 - encoded.length % 4
  if pad ≠ 4 then encoded ++ List.replicate pad '=' else encoded

/-- Python `str.encode("utf-8")`. -/
def utf8Encode : List Char → List Nat
  | [] => []
  | c :: rest =>
    let n := c.toNat
    (if n < 128 then [n]
     else if n < 2048 then [192 + n / 64, 128 + n % 64]
     else if n < 65536 then [224 + n / 4096, 128 + (n / 64) % 64, 128 + n % 64]
     else [240 + n / 262144, 128 + (n / 4096) % 64, 128 + (n / 64) % 64, 128 + n % 64])
      ++ utf8Encode rest

/-- Two-byte sequence step of strict UTF-8 decoding: continuation check
(no overlong forms reach here since the lead byte is ≥ 0xC2); `k` is the
decoded remainder. -/
def utf8Cont2 (b c1 : Nat) (k : Option (List Char)) : Option (List Char) :=
  if 128 ≤ c1 ∧ c1 < 192 then
    k.map (fun cs => Char.ofNat ((b - 192) * 64 + (c1 - 128)) :: cs)
  else none

/-- Three-byte sequence step of strict UTF-8 decoding: continuation,
overlong and surrogate checks; `k` is the decoded remainder. -/
def utf8Cont3 (b c1 c2 : Nat) (k : Option (List Char)) : Option (List Char) :=
  if 128 ≤ c1 ∧ c1 < 192 ∧ 128 ≤ c2 ∧ c2 < 192 then
    let cp := (b - 224) * 4096 + (c1 - 128) * 64 + (c2 - 128)
    if cp < 2048 ∨ (55296 ≤ cp ∧ cp < 57344) then none
    else k.map (fun cs => Char.ofNat cp :: cs)
  else none

/-- Four-byte sequence step of strict UTF-8 decoding: continuation,
overlong and range checks; `k` is the decoded remainder. -/
def utf8Cont4 (b c1 c2 c3 : Nat) (k : Option (List Char)) : Option (List Char) :=
  if 128 ≤ c1 ∧ c1 < 192 ∧ 128 ≤ c2 ∧ c2 < 192 ∧ 128 ≤ c3 ∧ c3 < 192 then
    let cp := (b - 240) * 262144 + (c1 - 128) * 4096 + (c2 - 128) * 64 + (c3 - 128)
    if cp < 65536 ∨ 1114112 ≤ cp then none
    else k.map (fun cs => Char.ofNat cp :: cs)
  else none

/-- Shape dispatch for a two-byte lead: one continuation byte must
follow; `k` decodes the remaining tail. -/
def utf8Step2 (b : Nat) (rest : List Nat)
    (k : List Nat → Option (List Char)) : Option (List Char) :=
  match rest with
  | c1 :: rest2 => utf8Cont2 b c1 (k rest2)
  | [] => none

/-- Shape dispatch for a three-byte lead: two continuation bytes must
follow; `k` decodes the remaining tail. -/
def utf8Step3 (b : Nat) (rest : List Nat)
    (k : List Nat → Option (List Char)) : Option (List Char) :=
  match rest with
  | c1 :: c2 :: rest2 => utf8Cont3 b c1 c2 (k rest2)
  | _ => none

/-- Shape dispatch for a four-byte lead: three continuation bytes must
follow; `k` decodes the remaining tail. -/
def utf8Step4 (b : Nat) (rest : List Nat)
    (k : List Nat → Option (List Char)) : Option (List Char) :=
  match rest with
  | c1 :: c2 :: c3 :: rest2 => utf8Cont4 b c1 c2 c3 (k rest2)
  | _ => none

/-- Fuelled strict UTF-8 decoding loop (structural on the fuel, so it
reduces on concrete input); `utf8Decode` supplies enough fuel. -/
def utf8DecodeAux : Nat → List Nat → Option (List Char)
  | _, [] => some []
  | 0, _ :: _ => none
  | fuel + 1, b :: rest =>
    if b < 128 then
      (utf8DecodeAux fuel rest).map (fun cs => Char.ofNat b :: cs)
    else if b < 194 then none
    else if b < 224 then utf8Step2 b rest (utf8DecodeAux fuel)
    else if b < 240 then utf8Step3 b rest (utf8DecodeAux fuel)
    else if b < 245 then utf8Step4 b rest (utf8DecodeAux fuel)
    else none

/-- Python `bytes.decode("utf-8")` (strict: rejects stray continuation
bytes, overlong forms, surrogates and out-of-range code points;
`None` = raised `UnicodeDecodeError`, a `ValueError` the caller catches). -/
def utf8Decode (l : List Nat) : Option (List Char) :=
  utf8DecodeAux l.length l

/-- Decimal digit character of a value below 10. -/
def digitChar (n : Nat) : Char := Char.ofNat (48 + n)

/-- Fuelled decimal rendering (structural, so it reduces on concrete
input); `natDigits` supplies enough fuel. -/
def natDigitsAux : Nat → Nat → List Char
  | 0, _ => []
  | fuel + 1, n =>
    if n < 10 then [digitChar n]
    else natDigitsAux fuel (n / 10) ++ [digitChar (n % 10)]

/-- Decimal rendering of a natural, as Python's `f"{user_id}"` / `f"{ts}"`
produce for the non-negative ints used here. -/
def natDigits (n : Nat) : List Char := natDigitsAux (n + 1) n

/-- Decimal digit value of a character. -/
def digitVal (c : Char) : Option Nat :=
  if '0' ≤ c ∧ c ≤ '9' then some (c.toNat - 48) else none

/-- Digit run of Python `int(s)` after the first digit: a single `_` is
allowed between digits, nothing else. -/
def pyDigits : List Char → Nat → Option Nat
  | [], acc => some acc
  | c :: rest, acc =>
    if c = '_' then
      match rest with
      | c2 :: rest2 =>
        match digitVal c2 with
        | some d => pyDigits rest2 (acc * 10 + d)
        | none => none
      | [] => none
    else
      match digitVal c with
      | some d => pyDigits rest (acc * 10 + d)
      | none => none

/-- Magnitude part of Python `int(s)`: must start with a digit. -/
def pyNat : List Char → Option Nat
  | [] => none
  | c :: rest =>
    match digitVal c with
    | some d => pyDigits rest d
    | none => none

/-- ASCII whitespace stripped by Python `int(s)`. -/
def isPySpace (c : Char) : Bool :=
  c = ' ' ∨ c = '\t' ∨ c = '\n' ∨ c = '\r' ∨ c = '\x0b' ∨ c = '\x0c'

/-- Python `str.strip()` as applied by `int(s)`. -/
def pyStrip (l : List Char) : List Char :=
  ((l.dropWhile isPySpace).reverse.dropWhile isPySpace).reverse

/-- Python `int(s)` for ASCII decimal strings (optional surrounding
whitespace, optional sign, decimal digits with `_` separators;
`None` = raised `ValueError`). -/
def pyInt (l : List Char) : Option Int :=
  match pyStrip l with
  | [] => none
  | c :: rest =>
    if c = '+' then (pyNat rest).map (fun n => (n : Int))
    else if c = '-' then (pyNat rest).map (fun n => -(n : Int))
    else (pyNat (c :: rest)).map (fun n => (n : Int))

/-- Python `s.split(":", 1)` when a second part exists (`none` models the
`IndexError` of `parts[1]` when there is no colon, caught by the caller). -/
def splitColonOnce : List Char → Option (List Char × List Char)
  | [] => none
  | c :: rest =>
    if c = ':' then some ([], rest)
    else (splitColonOnce rest).map (fun p => (c :: p.1, p.2))

/-- Python `token.rsplit(".", 1)` (only reached when `"." in token`). -/
def rsplitDotOnce (l : List Char) : List Char × List Char :=
  let rev := l.reverse
  (((rev.dropWhile (fun c => ¬ c = '.')).drop 1).reverse,
   (rev.takeWhile (fun c => ¬ c = '.')).reverse)

/-- Python `_sign_payload(payload)`:
`urlsafe_b64encode(payload).decode("ascii").rstrip("=") + "." + sig`,
with the keyed HMAC-SHA256 hexdigest abstracted as `mac`. -/
def sign_payload (mac : List Nat → String) (payload : List Nat) : List Char :=
  rstripEq (b64encodeBody payload) ++ '.' :: (mac payload).data

/-- Python `create_session_token(user_id)`; `ts` is the drawn
`int(time.time())`. -/
def create_session_token (mac : List Nat → String) (user_id : Nat) (ts : Nat) :
    List Char :=
  sign_payload mac (utf8Encode (natDigits user_id ++ ':' :: natDigits ts))

/-- Python `verify_session_token(token)`; `now` is the current
`time.time()` (taken at integer resolution). -/
def verify_session_token (mac : List Nat → String) (token : List Char)
    (now : Int) : Option Int :=
  if token = [] ∨ '.' ∉ token then none
  else
    let parts := rsplitDotOnce token
    match urlsafe_b64decode (repadB64 parts.1) with
    | none => none
    | some payload =>
      if ¬ (mac payload).data = parts.2 then none
      else
        match utf8Decode payload with
        | none => none
        | some chars =>
          match splitColonOnce chars with
          | none => none
          | some (p0, p1) =>
            match pyInt p0, pyInt p1 with
            | some user_id, some ts =>
              if 14 * 24 * 3600 < |now - ts| then none else some user_id
            | _, _ => none

/-! ### app/models — table rows; the relational store -/

structure User where
  id : Nat
  email : String
  hashed_password : String
deriving Repr, DecidableEq

structure Progress where
  id : Nat
  session_id : Option String
  user_id : Option Nat
  risk_score : Int
  total_attempted : Int
  correct_count : Int
  current_streak : Int
deriving Repr, DecidableEq

structure Choice where
  text : String
  is_safe : Bool
  explanation : String
  score_delta : Int
deriving Repr, DecidableEq

structure Scenario where
  id : Nat
  title : String
  channel : String
  message_text : String
  tactic : String
  choices : List Choice
deriving Repr, DecidableEq

structure AttemptRow where
  id : Nat
  progress_id : Nat
  scenario_id : Nat
  choice_index : Int
  is_safe : Bool
  tactic : String
deriving Repr, DecidableEq

structure Db where
  users : List User
  progresses : List Progress
  scenarios : List Scenario
  attempts : List AttemptRow
  nextProgressId : Nat
  nextAttemptId : Nat
deriving Repr, DecidableEq

/-! ### app/routers/web.py, api.py, auth.py -/

/-- Python `db.query(User).filter(User.id == user_id).first()`. -/
def findUserById (db : Db) (uid : Int) : Option User :=
  db.users.find? (fun u => (u.id : Int) = uid)

/-- Python `get_current_user_optional` (identical in web.py and auth.py). -/
def get_current_user_optional (mac : List Nat → String) (db : Db)
    (auth_cookie : Option (List Char)) (now : Int) : Option User :=
  match auth_cookie with
  | none => none
  | some token =>
    if token = [] then none
    else
      match verify_session_token mac token now with
      | none => none
      | some uid => findUserById db uid

/-- Python `get_or_create_session_id` (identical in web.py and api.py);
`fresh` is the `str(uuid.uuid4())` this request would draw.
An empty cookie value is falsy in Python, hence also replaced. -/
def get_or_create_session_id (guest_cookie : Option String) (fresh : String) :
    String :=
  match guest_cookie with
  | some sid => if sid = "" then fresh else sid
  | none => fresh

/-- web.py `get_or_create_progress`: by `user_id` when the auth cookie
resolves to a user, else by guest `session_id`; creates the row lazily. -/
def web_get_or_create_progress (mac : List Nat → String) (db : Db)
    (auth_cookie : Option (List Char)) (guest_cookie : Option String)
    (fresh : String) (now : Int) : Progress × Db :=
  match get_current_user_optional mac db auth_cookie now with
  | some u =>
    match db.progresses.find? (fun p => p.user_id = some u.id) with
    | some p => (p, db)
    | none =>
      let p : Progress :=
        ⟨db.nextProgressId, none, some u.id, INITIAL_RISK_SCORE, 0, 0, 0⟩
      (p, { db with progresses := db.progresses ++ [p],
                    nextProgressId := db.nextProgressId + 1 })
  | none =>
    let sid := get_or_create_session_id guest_cookie fresh
    match db.progresses.find? (fun p => p.session_id = some sid) with
    | some p => (p, db)
    | none =>
      let p : Progress :=
        ⟨db.nextProgressId, some sid, none, INITIAL_RISK_SCORE, 0, 0, 0⟩
      (p, { db with progresses := db.progresses ++ [p],
                    nextProgressId := db.nextProgressId + 1 })

/-- api.py `get_or_create_progress`: resolves by the guest session cookie
only — the request's auth cookie (kept as a binder to model the full
cookie set the request carries) is never consulted. -/
def api_get_or_create_progress (db : Db) (_auth_cookie : Option (List Char))
    (guest_cookie : Option String) (fresh : String) : Progress × Db :=
  let sid := get_or_create_session_id guest_cookie fresh
  match db.progresses.find? (fun p => p.session_id = some sid) with
  | some p => (p, db)
  | none =>
    let p : Progress :=
      ⟨db.nextProgressId, some sid, none, INITIAL_RISK_SCORE, 0, 0, 0⟩
    (p, { db with progresses := db.progresses ++ [p],
                  nextProgressId := db.nextProgressId + 1 })

/-- Identity: the derived per-request tagged union of spec section 3. -/
inductive Identity where
  | account : Nat → Identity
  | guest : String → Identity
deriving Repr, DecidableEq

/-- The identity-resolution branching of the web router:
`get_current_user_optional` composed with the guest fallback of
`get_or_create_progress` via `get_or_create_session_id`. -/
def resolve_identity (mac : List Nat → String) (db : Db)
    (auth_cookie : Option (List Char)) (guest_cookie : Option String)
    (fresh : String) (now : Int) : Identity :=
  match get_current_user_optional mac db auth_cookie now with
  | some u => .account u.id
  | none => .guest (get_or_create_session_id guest_cookie fresh)

/-- HTTPExceptions raised by the attempt-submission handlers. -/
inductive HttpError where
  | notFound
  | invalidChoice
deriving Repr, DecidableEq

/-- web.py `train_post` body after dependency resolution (`progress` is the
row the get-or-create dependency returned). When an `HTTPException` is
raised the state held at the raise point is returned with the error. -/
def train_post (db : Db) (progress : Progress) (scenario_id : Nat)
    (choice_index : Int) : Db × Option HttpError :=
  match db.scenarios.find? (fun s => s.id = scenario_id) with
  | none => (db, some .notFound)
  | some scenario =>
    if choice_index < 0 ∨ (scenario.choices.length : Int) ≤ choice_index then
      (db, some .invalidChoice)
    else
      let choice := scenario.choices.getD choice_index.toNat ⟨"", false, "", 0⟩
      let is_safe := choice.is_safe
      let score_delta := choice.score_delta
      let p' : Progress :=
        { progress with
            risk_score := apply_score_delta progress.risk_score score_delta
            total_attempted := progress.total_attempted + 1
            correct_count :=
              if is_safe then progress.correct_count + 1 else progress.correct_count
            current_streak :=
              if is_safe then progress.current_streak + 1 else 0 }
      let att : AttemptRow :=
        ⟨db.nextAttemptId, progress.id, scenario.id, choice_index, is_safe,
          scenario.tactic⟩
      ({ db with
          progresses := db.progresses.map (fun q => if q.id = progress.id then p' else q)
          attempts := db.attempts ++ [att]
          nextAttemptId := db.nextAttemptId + 1 }, none)

/-- api.py `submit_attempt` body after dependency resolution (the `bool()` /
`int()` coercions on the choice fields are identities in the model). -/
def submit_attempt (db : Db) (progress : Progress) (scenario_id : Nat)
    (choice_index : Int) : Db × Option HttpError :=
  match db.scenarios.find? (fun s => s.id = scenario_id) with
  | none => (db, some .notFound)
  | some scenario =>
    if choice_index < 0 ∨ (scenario.choices.length : Int) ≤ choice_index then
      (db, some .invalidChoice)
    else
      let choice := scenario.choices.getD choice_index.toNat ⟨"", false, "", 0⟩
      let is_safe := choice.is_safe
      let score_delta := choice.score_delta
      let p' : Progress :=
        { progress with
            risk_score := apply_score_delta progress.risk_score score_delta
            total_attempted := progress.total_attempted + 1
            correct_count :=
              if is_safe then progress.correct_count + 1 else progress.correct_count
            current_streak :=
              if is_safe then progress.current_streak + 1 else 0 }
      let att : AttemptRow :=
        ⟨db.nextAttemptId, progress.id, scenario.id, choice_index, is_safe,
          scenario.tactic⟩
      ({ db with
          progresses := db.progresses.map (fun q => if q.id = progress.id then p' else q)
          attempts := db.attempts ++ [att]
          nextAttemptId := db.nextAttemptId + 1 }, none)

/-- web.py `reset_post` body after dependency resolution: delete this
progress's attempts, reset score and counters. -/
def reset_post (db : Db) (progress : Progress) : Db :=
  { db with
      attempts := db.attempts.filter (fun a => ¬ a.progress_id = progress.id)
      progresses := db.progresses.map (fun q =>
        if q.id = progress.id then
          { q with risk_score := INITIAL_RISK_SCORE, total_attempted := 0,
                   correct_count := 0, current_streak := 0 }
        else q) }

/-- Update step of the `link_progress` block of auth.py `register_post`:
the first Progress row owned by the guest session id is re-keyed to the
new account (`user_id = user.id; session_id = None`) in one update. -/
def updateFirstBySession : List Progress → String → Nat → List Progress
  | [], _, _ => []
  | p :: rest, sid, uid =>
    if p.session_id = some sid then
      { p with user_id := some uid, session_id := none } :: rest
    else p :: updateFirstBySession rest sid uid

/-- auth.py `register_post`, `link_progress` migration block:
`guest_cookie` is `request.cookies.get(settings.session_cookie_name)`
(an absent or empty cookie is falsy, hence a no-op). -/
def migrate_guest_progress (db : Db) (guest_cookie : Option String)
    (new_user_id : Nat) : Db :=
  match guest_cookie with
  | none => db
  | some sid =>
    if sid = "" then db
    else { db with progresses := updateFirstBySession db.progresses sid new_user_id }

/-! ### Spec-side formulations and invariants -/

/-- The owner invariant of spec section 3: exactly one of `session_id` and
`user_id` is non-null. -/
def ownerInvariant (p : Progress) : Prop :=
  (p.session_id ≠ none ∧ p.user_id = none) ∨ (p.session_id = none ∧ p.user_id ≠ none)

/-- The owner invariant for every Progress row of the store. -/
def dbOwnerInvariant (db : Db) : Prop :=
  ∀ p ∈ db.progresses, ownerInvariant p

/-- Modelled from the spec: the chronologically ordered attempt history
contains a run of at least `k` consecutive safe attempts. -/
def hasSafeRunSpec (l : List AttemptView) (k : Nat) : Prop :=
  ∃ l1 l2 l3 : List AttemptView,
    l = l1 ++ l2 ++ l3 ∧ (∀ a ∈ l2, a.is_safe = true) ∧ k ≤ l2.length

/-- Helper recursion for relating `_max_consecutive_safe` to
`hasSafeRunSpec`: the longest safe run when `c` safe attempts immediately
precede the remaining list. -/
def safeRunMax : Nat → List AttemptView → Nat
  | c, [] => c
  | c, a :: rest => if a.is_safe then safeRunMax (c + 1) rest else max c (safeRunMax 0 rest)

/-- The fixed tactic priority order of the spec — also the construction
order of the breakdown lists in both routers and the key order of
`TACTIC_TIPS`. -/
def TACTIC_PRIORITY : List String :=
  ["Urgency", "Authority", "Scarcity", "Reciprocity", "Fear"]

/-- Position of a tactic in the fixed priority order. -/
def priorityIndex (t : String) : Nat := TACTIC_PRIORITY.indexOf t

/-- A breakdown over the fixed 5-tactic set in priority order, as both
routers construct it (mistake counts are naturals). -/
def breakdown5 (u a s r f : Nat) : List TacticBreakdownSchema :=
  [⟨"Urgency", (u : Int)⟩, ⟨"Authority", (a : Int)⟩, ⟨"Scarcity", (s : Int)⟩,
   ⟨"Reciprocity", (r : Int)⟩, ⟨"Fear", (f : Int)⟩]

/-- Modelled from the spec: insertion step of ordering by descending
mistake count, ties broken by the fixed tactic priority order. -/
def insertByMistakesThenPriority (x : TacticBreakdownSchema) :
    List TacticBreakdownSchema → List TacticBreakdownSchema
  | [] => [x]
  | y :: ys =>
    if y.mistake_count < x.mistake_count ∨
        (x.mistake_count = y.mistake_count ∧
          priorityIndex x.tactic ≤ priorityIndex y.tactic) then
      x :: y :: ys
    else y :: insertByMistakesThenPriority x ys

/-- Modelled from the spec: the breakdown ordered by descending mistake
count, ties broken by the fixed tactic priority order. -/
def sortByMistakesThenPriority (l : List TacticBreakdownSchema) :
    List TacticBreakdownSchema :=
  l.foldr insertByMistakesThenPriority []

/-- The tip produced for a breakdown entry (text from the tip table). -/
def tipFor (t : TacticBreakdownSchema) : TipSchema :=
  ⟨t.tactic, (tacticTipGet t.tactic).getD ""⟩

/-- Modelled from the spec: up to `max_tips` tips, ordered by descending
mistake count with ties broken by the fixed priority order, skipping
zero-mistake tactics, then padded with zero-mistake tactics in priority
order until `max_tips` is reached or tactics are exhausted. -/
def weak_tactic_tips_spec (u a s r f : Nat) (max_tips : Nat) : List TipSchema :=
  let bd := breakdown5 u a s r f
  let nonzero :=
    (sortByMistakesThenPriority bd).filter (fun t => decide (¬ t.mistake_count = 0))
  let zeros := bd.filter (fun t => decide (t.mistake_count = 0))
  ((nonzero ++ zeros).map tipFor).take max_tips

/-! ### Concrete values for witnesses and counterexamples -/

/-- Payload bytes of a token for user 42 issued at unix time 1700000000. -/
def demoPayload42 : List Nat := utf8Encode (natDigits 42 ++ ':' :: natDigits 1700000000)

/-- Payload bytes of a token for user 1 issued at unix time 1700000000. -/
def demoPayload1 : List Nat := utf8Encode (natDigits 1 ++ ':' :: natDigits 1700000000)

/-- Concrete stand-in for the keyed HMAC hexdigest, collision-free at the
demo payloads. -/
def demoMac : List Nat → String :=
  fun p =>
    if p = demoPayload42 then "0a1b2c"
    else if p = demoPayload1 then "3d4e5f"
    else "ffffff"

def demoUser : User := ⟨1, "user@example.com", "hash"⟩

def demoChoiceSafe : Choice := ⟨"Ignore and report", true, "good", -5⟩

def demoChoiceUnsafe : Choice := ⟨"Click the link", false, "bad", 10⟩

def demoScenario : Scenario :=
  ⟨1, "t", "email", "msg", "Urgency", [demoChoiceSafe, demoChoiceUnsafe]⟩

def demoProgress : Progress := ⟨1, some "g", none, 50, 0, 0, 0⟩

/-- A store with one account, no progress rows yet. -/
def demoDb : Db := ⟨[demoUser], [], [demoScenario], [], 1, 1⟩

/-- A store with one account and one guest progress row. -/
def demoDb2 : Db := ⟨[demoUser], [demoProgress], [demoScenario], [], 2, 1⟩

/-- Token issued for user 1 at unix time 1700000000 under `demoMac`. -/
def demoToken1 : List Char := create_session_token demoMac 1 1700000000

/-- Token issued for user 42 at unix time 1700000000 under `demoMac`. -/
def demoToken42 : List Char := create_session_token demoMac 42 1700000000

/-- `demoToken42` with the final character of its payload encoding altered
(`…MA` → `…MB`): the low four bits of that base64 character are unused, so
the altered token decodes to the same payload bytes. -/
def demoToken42Altered : List Char :=
  "NDI6MTcwMDAwMDAwMB".data ++ '.' :: "0a1b2c".data

/-- The alphabet part of the urlsafe encoding (proof helper: the encoding
split from its `=` padding). -/
def b64encNoPad : List Nat → List Char
  | b0 :: b1 :: b2 :: rest =>
    b64char (b0 / 4) :: b64char ((b0 % 4) * 16 + b1 / 16) ::
      b64char ((b1 % 16) * 4 + b2 / 64) :: b64char (b2 % 64) :: b64encNoPad rest
  | [b0, b1] =>
    [b64char (b0 / 4), b64char ((b0 % 4) * 16 + b1 / 16), b64char ((b1 % 16) * 4)]
  | [b0] =>
    [b64char (b0 / 4), b64char ((b0 % 4) * 16)]
  | [] => []

/-- Number of `=` padding characters of the urlsafe encoding (proof
helper). -/
def b64padCount : List Nat → Nat
  | _ :: _ :: _ :: rest => b64padCount rest
  | [_, _] => 1
  | [_] => 2
  | [] => 0

/-- The payload bytes `f"{user_id}:{ts}".encode("utf-8")` of a session
token. -/
def sessionPayload (user_id ts : Nat) : List Nat :=
  utf8Encode (natDigits user_id ++ ':' :: natDigits ts)

/-! ## Theorems -/

/-- C9: for every current score in `[0,100]` and every integer delta,
`apply_score_delta(current, delta)` equals `clamp(current + delta, 0, 100)`:
the result is always within `[0,100]`, equals `current + delta` whenever
that sum is in range, and saturates at the bounds without wrapping or
raising (the function is total on all of `Int`). -/
theorem c9_apply_delta_clamps (current delta : Int)
    (_h0 : 0 ≤ current) (_h1 : current ≤ 100) :
    apply_score_delta current delta = clampSpec (current + delta) 0 100 ∧
    0 ≤ apply_score_delta current delta ∧
    apply_score_delta current delta ≤ 100 ∧
    (0 ≤ current + delta → current + delta ≤ 100 →
      apply_score_delta current delta = current + delta) := by
  refine ⟨?_, ?_, ?_, fun h2 h3 => ?_⟩ <;>
    simp only [apply_score_delta, clampSpec, MIN_SCORE, MAX_SCORE,
      max_def, min_def] <;>
    split_ifs <;> omega

/-- Witness for C9 at `current = 50`, `delta = 10`. -/
theorem c9_witness :
    apply_score_delta 50 10 = clampSpec (50 + 10) 0 100 ∧
    0 ≤ apply_score_delta 50 10 ∧
    apply_score_delta 50 10 ≤ 100 ∧
    (0 ≤ (50 : Int) + 10 → (50 : Int) + 10 ≤ 100 →
      apply_score_delta 50 10 = 50 + 10) :=
  c9_apply_delta_clamps 50 10 (by decide) (by decide)

/-- C5: a submission whose scenario id does not exist, or whose
`choice_index` is outside the scenario's choice list, is rejected by both
submission handlers with the state they held at the raise point — no
Progress field changes and no Attempt row is added. -/
theorem c5_rejection_no_mutation (db : Db) (progress : Progress)
    (scenario_id : Nat) (choice_index : Int) :
    (db.scenarios.find? (fun s => s.id = scenario_id) = none →
      train_post db progress scenario_id choice_index = (db, some .notFound) ∧
      submit_attempt db progress scenario_id choice_index = (db, some .notFound)) ∧
    (∀ sc, db.scenarios.find? (fun s => s.id = scenario_id) = some sc →
      (choice_index < 0 ∨ (sc.choices.length : Int) ≤ choice_index) →
      train_post db progress scenario_id choice_index = (db, some .invalidChoice) ∧
      submit_attempt db progress scenario_id choice_index = (db, some .invalidChoice)) := by
  constructor
  · intro h
    constructor <;> simp [train_post, submit_attempt, h]
  · intro sc h hb
    constructor <;> simp [train_post, submit_attempt, h, hb]

/-- Witness for C5: unknown scenario id 999, and out-of-range choice
index 5 on the demo scenario (2 choices). -/
theorem c5_witness :
    (train_post demoDb2 demoProgress 999 0 = (demoDb2, some .notFound) ∧
      submit_attempt demoDb2 demoProgress 999 0 = (demoDb2, some .notFound)) ∧
    (train_post demoDb2 demoProgress 1 5 = (demoDb2, some .invalidChoice) ∧
      submit_attempt demoDb2 demoProgress 1 5 = (demoDb2, some .invalidChoice)) :=
  ⟨(c5_rejection_no_mutation demoDb2 demoProgress 999 0).1 (by decide),
   (c5_rejection_no_mutation demoDb2 demoProgress 1 5).2 demoScenario
     (by decide) (by decide)⟩

/-- C2: for every Progress state and every in-range submission through
either submission path, the updated row has `total_attempted` increased by
exactly 1, `risk_score` equal to `apply_score_delta` of the previous score
and the chosen option's `score_delta`, `correct_count` increased by 1
exactly when the option is safe, and `current_streak` equal to previous+1
when safe and 0 when unsafe — and the owner fields and id unchanged. -/
theorem c2_record_attempt_transition (db : Db) (progress : Progress)
    (scenario_id : Nat) (choice_index : Int) (sc : Scenario) (choice : Choice)
    (hfind : db.scenarios.find? (fun s => s.id = scenario_id) = some sc)
    (h0 : 0 ≤ choice_index)
    (hget : sc.choices[choice_index.toNat]? = some choice) :
    ∃ p' : Progress,
      train_post db progress scenario_id choice_index =
        ({ db with
            progresses :=
              db.progresses.map (fun q => if q.id = progress.id then p' else q)
            attempts := db.attempts ++
              [⟨db.nextAttemptId, progress.id, sc.id, choice_index,
                choice.is_safe, sc.tactic⟩]
            nextAttemptId := db.nextAttemptId + 1 }, none) ∧
      submit_attempt db progress scenario_id choice_index =
        train_post db progress scenario_id choice_index ∧
      p'.total_attempted = progress.total_attempted + 1 ∧
      p'.risk_score = apply_score_delta progress.risk_score choice.score_delta ∧
      p'.correct_count =
        (if choice.is_safe then progress.correct_count + 1 else progress.correct_count) ∧
      p'.current_streak =
        (if choice.is_safe then progress.current_streak + 1 else 0) ∧
      p'.id = progress.id ∧ p'.session_id = progress.session_id ∧
      p'.user_id = progress.user_id := by
  have hlt : choice_index.toNat < sc.choices.length := by
    rcases List.getElem?_eq_some.mp hget with ⟨h, _⟩
    exact h
  have htn : (choice_index.toNat : Int) = choice_index := Int.toNat_of_nonneg h0
  have hcond : ¬ (choice_index < 0 ∨ (sc.choices.length : Int) ≤ choice_index) := by
    push_neg
    omega
  have hchoice : sc.choices.getD choice_index.toNat ⟨"", false, "", 0⟩ = choice := by
    simp [List.getD, hget]
  refine ⟨{ progress with
      risk_score := apply_score_delta progress.risk_score choice.score_delta
      total_attempted := progress.total_attempted + 1
      correct_count :=
        if choice.is_safe then progress.correct_count + 1 else progress.correct_count
      current_streak :=
        if choice.is_safe then progress.current_streak + 1 else 0 }, ?_, ?_, rfl,
      rfl, rfl, rfl, rfl, rfl, rfl⟩
  · simp only [train_post, hfind, if_neg hcond, hchoice]
  · simp only [train_post, submit_attempt, hfind, if_neg hcond, hchoice]

/-- Witness for C2: a safe choice (index 0, delta −5) on the demo
scenario. -/
theorem c2_witness :
    ∃ p' : Progress,
      train_post demoDb2 demoProgress 1 0 =
        ({ demoDb2 with
            progresses :=
              demoDb2.progresses.map (fun q => if q.id = demoProgress.id then p' else q)
            attempts := demoDb2.attempts ++
              [⟨demoDb2.nextAttemptId, demoProgress.id, demoScenario.id, 0,
                demoChoiceSafe.is_safe, demoScenario.tactic⟩]
            nextAttemptId := demoDb2.nextAttemptId + 1 }, none) ∧
      submit_attempt demoDb2 demoProgress 1 0 = train_post demoDb2 demoProgress 1 0 ∧
      p'.total_attempted = demoProgress.total_attempted + 1 ∧
      p'.risk_score = apply_score_delta demoProgress.risk_score demoChoiceSafe.score_delta ∧
      p'.correct_count =
        (if demoChoiceSafe.is_safe then demoProgress.correct_count + 1
         else demoProgress.correct_count) ∧
      p'.current_streak =
        (if demoChoiceSafe.is_safe then demoProgress.current_streak + 1 else 0) ∧
      p'.id = demoProgress.id ∧ p'.session_id = demoProgress.session_id ∧
      p'.user_id = demoProgress.user_id :=
  c2_record_attempt_transition demoDb2 demoProgress 1 0 demoScenario demoChoiceSafe
    (by decide) (by decide) (by decide)

/-- Rows of `updateFirstBySession` keep the owner invariant: the re-keyed
row gets `user_id` set and `session_id` nulled, the rest are untouched. -/
theorem ownerInvariant_updateFirstBySession (l : List Progress) (sid : String)
    (uid : Nat) (h : ∀ q ∈ l, ownerInvariant q) :
    ∀ q ∈ updateFirstBySession l sid uid, ownerInvariant q := by
  induction l with
  | nil => intro q hq; simp [updateFirstBySession] at hq
  | cons p rest ih =>
    intro q hq
    simp only [updateFirstBySession] at hq
    by_cases hps : p.session_id = some sid
    · rw [if_pos hps] at hq
      rcases List.mem_cons.mp hq with rfl | hq
      · exact Or.inr ⟨rfl, by simp⟩
      · exact h q (List.mem_cons_of_mem _ hq)
    · rw [if_neg hps] at hq
      rcases List.mem_cons.mp hq with rfl | hq
      · exact h q (List.mem_cons_self _ _)
      · exact ih (fun r hr => h r (List.mem_cons_of_mem _ hr)) q hq

/-- The web get-or-create returns a row satisfying the owner invariant and
preserves it across the store. -/
theorem web_gocp_ownerInvariant (mac : List Nat → String) (db : Db)
    (auth : Option (List Char)) (guest : Option String) (fresh : String)
    (now : Int) (hdb : dbOwnerInvariant db) :
    ownerInvariant (web_get_or_create_progress mac db auth guest fresh now).1 ∧
    dbOwnerInvariant (web_get_or_create_progress mac db auth guest fresh now).2 := by
  cases hcu : get_current_user_optional mac db auth now with
  | some u =>
    cases hf : db.progresses.find? (fun p => p.user_id = some u.id) with
    | some p =>
      simp only [web_get_or_create_progress, hcu, hf]
      exact ⟨hdb p (List.mem_of_find?_eq_some hf), hdb⟩
    | none =>
      simp only [web_get_or_create_progress, hcu, hf]
      refine ⟨Or.inr ⟨rfl, by simp⟩, fun q hq => ?_⟩
      simp only [List.mem_append, List.mem_singleton] at hq
      rcases hq with hq | rfl
      · exact hdb q hq
      · exact Or.inr ⟨rfl, by simp⟩
  | none =>
    cases hf : db.progresses.find?
        (fun p => p.session_id = some (get_or_create_session_id guest fresh)) with
    | some p =>
      simp only [web_get_or_create_progress, hcu, hf]
      exact ⟨hdb p (List.mem_of_find?_eq_some hf), hdb⟩
    | none =>
      simp only [web_get_or_create_progress, hcu, hf]
      refine ⟨Or.inl ⟨by simp, rfl⟩, fun q hq => ?_⟩
      simp only [List.mem_append, List.mem_singleton] at hq
      rcases hq with hq | rfl
      · exact hdb q hq
      · exact Or.inl ⟨by simp, rfl⟩

/-- The api get-or-create returns a row satisfying the owner invariant and
preserves it across the store. -/
theorem api_gocp_ownerInvariant (db : Db) (auth : Option (List Char))
    (guest : Option String) (fresh : String) (hdb : dbOwnerInvariant db) :
    ownerInvariant (api_get_or_create_progress db auth guest fresh).1 ∧
    dbOwnerInvariant (api_get_or_create_progress db auth guest fresh).2 := by
  cases hf : db.progresses.find?
      (fun p => p.session_id = some (get_or_create_session_id guest fresh)) with
  | some p =>
    simp only [api_get_or_create_progress, hf]
    exact ⟨hdb p (List.mem_of_find?_eq_some hf), hdb⟩
  | none =>
    simp only [api_get_or_create_progress, hf]
    refine ⟨Or.inl ⟨by simp, rfl⟩, fun q hq => ?_⟩
    simp only [List.mem_append, List.mem_singleton] at hq
    rcases hq with hq | rfl
    · exact hdb q hq
    · exact Or.inl ⟨by simp, rfl⟩

/-- The attempt-recording transition never touches the owner fields. -/
theorem train_post_ownerInvariant (db : Db) (progress : Progress)
    (scenario_id : Nat) (choice_index : Int)
    (hdb : dbOwnerInvariant db) (hp : ownerInvariant progress) :
    dbOwnerInvariant (train_post db progress scenario_id choice_index).1 := by
  cases hfind : db.scenarios.find? (fun s => s.id = scenario_id) with
  | none => simp only [train_post, hfind]; exact hdb
  | some sc =>
    by_cases hb : choice_index < 0 ∨ (sc.choices.length : Int) ≤ choice_index
    · simp only [train_post, hfind, if_pos hb]; exact hdb
    · simp only [train_post, hfind, if_neg hb]
      intro q hq
      simp only [List.mem_map] at hq
      rcases hq with ⟨r, hr, rfl⟩
      by_cases hid : r.id = progress.id
      · rw [if_pos hid]; exact hp
      · rw [if_neg hid]; exact hdb r hr

/-- Same frame property for the api submission handler. -/
theorem submit_attempt_ownerInvariant (db : Db) (progress : Progress)
    (scenario_id : Nat) (choice_index : Int)
    (hdb : dbOwnerInvariant db) (hp : ownerInvariant progress) :
    dbOwnerInvariant (submit_attempt db progress scenario_id choice_index).1 := by
  cases hfind : db.scenarios.find? (fun s => s.id = scenario_id) with
  | none => simp only [submit_attempt, hfind]; exact hdb
  | some sc =>
    by_cases hb : choice_index < 0 ∨ (sc.choices.length : Int) ≤ choice_index
    · simp only [submit_attempt, hfind, if_pos hb]; exact hdb
    · simp only [submit_attempt, hfind, if_neg hb]
      intro q hq
      simp only [List.mem_map] at hq
      rcases hq with ⟨r, hr, rfl⟩
      by_cases hid : r.id = progress.id
      · rw [if_pos hid]; exact hp
      · rw [if_neg hid]; exact hdb r hr

/-- C3: every operation that creates or rewrites a Progress record —
get-or-create for a guest or an account (web), get-or-create (api),
guest-to-account migration, attempt recording through either handler, and
reset — preserves the owner invariant (exactly one of `session_id` and
`user_id` non-null). -/
theorem c3_owner_invariant_preserved (mac : List Nat → String) (db : Db)
    (auth : Option (List Char)) (guest : Option String) (fresh : String)
    (now : Int) (progress : Progress) (guest_ck : Option String) (uid : Nat)
    (scenario_id : Nat) (choice_index : Int)
    (hdb : dbOwnerInvariant db) (hp : ownerInvariant progress) :
    (ownerInvariant (web_get_or_create_progress mac db auth guest fresh now).1 ∧
      dbOwnerInvariant (web_get_or_create_progress mac db auth guest fresh now).2) ∧
    (ownerInvariant (api_get_or_create_progress db auth guest fresh).1 ∧
      dbOwnerInvariant (api_get_or_create_progress db auth guest fresh).2) ∧
    dbOwnerInvariant (migrate_guest_progress db guest_ck uid) ∧
    dbOwnerInvariant (train_post db progress scenario_id choice_index).1 ∧
    dbOwnerInvariant (submit_attempt db progress scenario_id choice_index).1 ∧
    dbOwnerInvariant (reset_post db progress) := by
  refine ⟨web_gocp_ownerInvariant mac db auth guest fresh now hdb,
    api_gocp_ownerInvariant db auth guest fresh hdb, ?_,
    train_post_ownerInvariant db progress scenario_id choice_index hdb hp,
    submit_attempt_ownerInvariant db progress scenario_id choice_index hdb hp, ?_⟩
  · cases guest_ck with
    | none => exact hdb
    | some sid =>
      by_cases hsid : sid = ""
      · simp only [migrate_guest_progress, if_pos hsid]; exact hdb
      · simp only [migrate_guest_progress, if_neg hsid]
        exact ownerInvariant_updateFirstBySession db.progresses sid uid hdb
  · unfold reset_post
    intro q hq
    simp only [List.mem_map] at hq
    rcases hq with ⟨r, hr, rfl⟩
    by_cases hid : r.id = progress.id
    · rw [if_pos hid]; exact hdb r hr
    · rw [if_neg hid]; exact hdb r hr

/-- Witness for C3 on the demo store. -/
theorem c3_witness :
    (ownerInvariant (web_get_or_create_progress demoMac demoDb2 none (some "g") "f" 0).1 ∧
      dbOwnerInvariant (web_get_or_create_progress demoMac demoDb2 none (some "g") "f" 0).2) ∧
    (ownerInvariant (api_get_or_create_progress demoDb2 none (some "g") "f").1 ∧
      dbOwnerInvariant (api_get_or_create_progress demoDb2 none (some "g") "f").2) ∧
    dbOwnerInvariant (migrate_guest_progress demoDb2 (some "g") 1) ∧
    dbOwnerInvariant (train_post demoDb2 demoProgress 1 0).1 ∧
    dbOwnerInvariant (submit_attempt demoDb2 demoProgress 1 0).1 ∧
    dbOwnerInvariant (reset_post demoDb2 demoProgress) :=
  c3_owner_invariant_preserved demoMac demoDb2 none (some "g") "f" 0 demoProgress
    (some "g") 1 1 0
    (by intro p hp; simp only [demoDb2, demoProgress] at hp ⊢; simp at hp; subst hp
        exact Or.inl ⟨by simp, rfl⟩)
    (Or.inl ⟨by simp [demoProgress], by simp [demoProgress]⟩)

/-- When no row owns the session id, `updateFirstBySession` is the
identity. -/
theorem updateFirstBySession_no_match (l : List Progress) (sid : String)
    (uid : Nat) (h : ∀ q ∈ l, q.session_id ≠ some sid) :
    updateFirstBySession l sid uid = l := by
  induction l with
  | nil => rfl
  | cons p rest ih =>
    simp only [updateFirstBySession]
    rw [if_neg (h p (List.mem_cons_self _ _))]
    rw [ih (fun q hq => h q (List.mem_cons_of_mem _ hq))]

/-- `updateFirstBySession` rewrites exactly the first row owning the
session id and keeps every other row. -/
theorem updateFirstBySession_split (pre post : List Progress) (p : Progress)
    (sid : String) (uid : Nat) (hp : p.session_id = some sid)
    (hpre : ∀ q ∈ pre, q.session_id ≠ some sid) :
    updateFirstBySession (pre ++ p :: post) sid uid =
      pre ++ { p with user_id := some uid, session_id := none } :: post := by
  induction pre with
  | nil => simp [updateFirstBySession, hp]
  | cons q rest ih =>
    simp only [List.cons_append, updateFirstBySession]
    rw [if_neg (hpre q (List.mem_cons_self _ _))]
    exact congrArg (fun l => q :: l)
      (ih (fun r hr => hpre r (List.mem_cons_of_mem _ hr)))

/-- C6: guest-to-account migration re-keys exactly the Progress row owned
by the guest session id (`user_id := new account`, `session_id := null`,
every other field and every other row untouched); when no row owns that
session id it is a no-op; in particular a second migration with the same
guest cookie after a first migration is a no-op. -/
theorem c6_guest_migration (db db' : Db) (sid : String) (uid uid2 : Nat)
    (pre post : List Progress) (p : Progress)
    (hsid : ¬ sid = "")
    (hsplit : db.progresses = pre ++ p :: post)
    (hp : p.session_id = some sid)
    (hpre : ∀ q ∈ pre, q.session_id ≠ some sid)
    (hpost : ∀ q ∈ post, q.session_id ≠ some sid)
    (hnone : ∀ q ∈ db'.progresses, q.session_id ≠ some sid) :
    migrate_guest_progress db (some sid) uid =
      { db with progresses :=
          pre ++ { p with user_id := some uid, session_id := none } :: post } ∧
    migrate_guest_progress db' (some sid) uid2 = db' ∧
    migrate_guest_progress (migrate_guest_progress db (some sid) uid)
        (some sid) uid2 =
      migrate_guest_progress db (some sid) uid := by
  have h1 : migrate_guest_progress db (some sid) uid =
      { db with progresses :=
          pre ++ { p with user_id := some uid, session_id := none } :: post } := by
    simp only [migrate_guest_progress, if_neg hsid, hsplit]
    rw [updateFirstBySession_split pre post p sid uid hp hpre]
  refine ⟨h1, ?_, ?_⟩
  · simp only [migrate_guest_progress, if_neg hsid]
    rw [updateFirstBySession_no_match db'.progresses sid uid2 hnone]
  · rw [h1]
    simp only [migrate_guest_progress, if_neg hsid]
    rw [updateFirstBySession_no_match _ sid uid2 ?_]
    intro q hq
    simp only [List.mem_append, List.mem_cons] at hq
    rcases hq with hq | rfl | hq
    · exact hpre q hq
    · simp
    · exact hpost q hq

/-- Witness for C6 on the demo store (guest row `demoProgress`, session id
`"g"`, new account id 1, a second migration attempt as account 2; `demoDb`
as a store with no guest row). -/
theorem c6_witness :
    migrate_guest_progress demoDb2 (some "g") 1 =
      { demoDb2 with progresses :=
          [] ++ { demoProgress with user_id := some 1, session_id := none } :: [] } ∧
    migrate_guest_progress demoDb (some "g") 2 = demoDb ∧
    migrate_guest_progress (migrate_guest_progress demoDb2 (some "g") 1)
        (some "g") 2 =
      migrate_guest_progress demoDb2 (some "g") 1 :=
  c6_guest_migration demoDb2 demoDb "g" 1 2 [] [] demoProgress
    (by decide) rfl rfl
    (by intro q hq; simp at hq)
    (by intro q hq; simp at hq)
    (by intro q hq; simp [demoDb] at hq)

/-- C8 amended: identity resolution is deterministic in the two cookie
values and the account state — independent of the per-request uuid draw —
whenever the guest cookie is present and non-empty, and likewise whenever
the auth cookie resolves to a user; with both cookies effectively absent,
resolution adopts the freshly drawn uuid, so two resolutions draw two
different session ids (see the counterexample). -/
theorem c8_resolution_deterministic (mac : List Nat → String) (db : Db)
    (auth : Option (List Char)) (guest : Option String) (fresh1 fresh2 : String)
    (now : Int) :
    ((∃ s, guest = some s ∧ s ≠ "") →
      resolve_identity mac db auth guest fresh1 now =
        resolve_identity mac db auth guest fresh2 now) ∧
    (∀ u, get_current_user_optional mac db auth now = some u →
      resolve_identity mac db auth guest fresh1 now =
        resolve_identity mac db auth guest fresh2 now) := by
  constructor
  · rintro ⟨s, rfl, hs⟩
    cases hcu : get_current_user_optional mac db auth now with
    | some u => simp only [resolve_identity, hcu]
    | none => simp only [resolve_identity, hcu, get_or_create_session_id, if_neg hs]
  · intro u hu
    simp only [resolve_identity, hu]

/-- C8 counterexample: with both cookies absent, each resolution draws a
fresh uuid (`uuid.uuid4()` values are globally unique across calls), so
resolving twice with the same — absent — cookies and unchanged account
state yields two different guest identities, contradicting the claim's
"including the case where both cookies are absent". -/
theorem c8_counterexample :
    resolve_identity demoMac demoDb none none "3f1f88a0-0000-4000-8000-000000000001" 0 ≠
      resolve_identity demoMac demoDb none none "3f1f88a0-0000-4000-8000-000000000002" 0 := by
  decide

/-- Witness for C8: a present guest cookie `"g"` resolves identically
under two different uuid draws. -/
theorem c8_witness :
    resolve_identity demoMac demoDb none (some "g") "f1" 0 =
      resolve_identity demoMac demoDb none (some "g") "f2" 0 :=
  (c8_resolution_deterministic demoMac demoDb none (some "g") "f1" "f2" 0).1
    ⟨"g", rfl, by decide⟩

/-- C1 amended: on the web resolution path, an auth cookie that verifies
to a user id of an existing Account resolves to that account and
get-or-create returns (or creates) the Progress row keyed by that
`user_id`; a failed verification or a dangling user id falls through to
guest resolution by guest cookie, with no error raised (the resolver is
total). The JSON API's get-or-create, however, resolves by the guest
session cookie only, never consulting the auth cookie (see the
counterexample). -/
theorem c1_identity_resolution (mac : List Nat → String) (db : Db)
    (token : List Char) (guest : Option String) (fresh : String) (now : Int)
    (uid : Int) (u : User) :
    (verify_session_token mac token now = some uid →
      findUserById db uid = some u →
      (web_get_or_create_progress mac db (some token) guest fresh now).1.user_id =
        some u.id ∧
      (∀ p, db.progresses.find? (fun q => q.user_id = some u.id) = some p →
        web_get_or_create_progress mac db (some token) guest fresh now = (p, db))) ∧
    (verify_session_token mac token now = none →
      (web_get_or_create_progress mac db (some token) guest fresh now).1.session_id =
        some (get_or_create_session_id guest fresh)) ∧
    (verify_session_token mac token now = some uid →
      findUserById db uid = none →
      (web_get_or_create_progress mac db (some token) guest fresh now).1.session_id =
        some (get_or_create_session_id guest fresh)) ∧
    (api_get_or_create_progress db (some token) guest fresh).1.session_id =
      some (get_or_create_session_id guest fresh) := by
  have htok : ∀ uid', verify_session_token mac token now = some uid' → token ≠ [] := by
    intro uid' hv h
    subst h
    simp [verify_session_token] at hv
  refine ⟨fun hv hu => ?_, fun hv => ?_, fun hv hu => ?_, ?_⟩
  · have hcu : get_current_user_optional mac db (some token) now = some u := by
      simp only [get_current_user_optional, if_neg (htok uid hv), hv, hu]
    cases hf : db.progresses.find? (fun q => q.user_id = some u.id) with
    | some p =>
      have hpu : p.user_id = some u.id := by
        have := List.find?_some hf
        simpa using this
      constructor
      · simp only [web_get_or_create_progress, hcu, hf, hpu]
      · intro p' hp'
        injection hp' with h
        subst h
        simp only [web_get_or_create_progress, hcu, hf]
    | none =>
      constructor
      · simp only [web_get_or_create_progress, hcu, hf]
      · intro p' hp'
        simp at hp'
  · have hcu : get_current_user_optional mac db (some token) now = none := by
      by_cases h : token = []
      · simp only [get_current_user_optional, if_pos h]
      · simp only [get_current_user_optional, if_neg h, hv]
    cases hf : db.progresses.find?
        (fun p => p.session_id = some (get_or_create_session_id guest fresh)) with
    | some p =>
      have hps : p.session_id = some (get_or_create_session_id guest fresh) := by
        have := List.find?_some hf
        simpa using this
      simp only [web_get_or_create_progress, hcu, hf, hps]
    | none =>
      simp only [web_get_or_create_progress, hcu, hf]
  · have hcu : get_current_user_optional mac db (some token) now = none := by
      simp only [get_current_user_optional, if_neg (htok uid hv), hv, hu]
    cases hf : db.progresses.find?
        (fun p => p.session_id = some (get_or_create_session_id guest fresh)) with
    | some p =>
      have hps : p.session_id = some (get_or_create_session_id guest fresh) := by
        have := List.find?_some hf
        simpa using this
      simp only [web_get_or_create_progress, hcu, hf, hps]
    | none =>
      simp only [web_get_or_create_progress, hcu, hf]
  · cases hf : db.progresses.find?
        (fun p => p.session_id = some (get_or_create_session_id guest fresh)) with
    | some p =>
      have hps : p.session_id = some (get_or_create_session_id guest fresh) := by
        have := List.find?_some hf
        simpa using this
      simp only [api_get_or_create_progress, hf, hps]
    | none =>
      simp only [api_get_or_create_progress, hf]

/-- C1 counterexample: a request to the JSON API whose auth cookie
verifies to user id 1, which maps to the existing account `demoUser`,
still gets a guest-keyed Progress row (`user_id` null, keyed by the guest
session cookie) — the claim's "get-or-create returns the Progress record
keyed by that user_id" fails for the API path, which ignores the auth
cookie. -/
theorem c1_counterexample :
    verify_session_token demoMac demoToken1 1700000000 = some 1 ∧
    findUserById demoDb 1 = some demoUser ∧
    (api_get_or_create_progress demoDb (some demoToken1) (some "g") "f").1.user_id =
      none ∧
    (api_get_or_create_progress demoDb (some demoToken1) (some "g") "f").1.session_id =
      some "g" := by
  refine ⟨by decide, by decide, by decide, by decide⟩

/-- Witness for C1: on the web path the same request resolves to the
account and gets a `user_id`-keyed row. -/
theorem c1_witness :
    (web_get_or_create_progress demoMac demoDb (some demoToken1) (some "g") "f"
        1700000000).1.user_id = some demoUser.id :=
  ((c1_identity_resolution demoMac demoDb demoToken1 (some "g") "f" 1700000000 1
      demoUser).1 (by decide) (by decide)).1

/-- The running-count argument of `safeRunMax` is a lower bound. -/
theorem safeRunMax_ge (l : List AttemptView) : ∀ c, c ≤ safeRunMax c l := by
  induction l with
  | nil => intro c; simp [safeRunMax]
  | cons a rest ih =>
    intro c
    simp only [safeRunMax]
    by_cases h : a.is_safe
    · rw [if_pos h]
      exact le_trans (Nat.le_succ c) (ih (c + 1))
    · rw [if_neg h]
      exact le_max_left _ _

/-- The fold of `_max_consecutive_safe` computes the running maximum of
`safeRunMax`. -/
theorem maxConsecutiveSafeAux_eq (l : List AttemptView) :
    ∀ m c, c ≤ m → maxConsecutiveSafeAux l m c = max m (safeRunMax c l) := by
  induction l with
  | nil =>
    intro m c hc
    simp only [maxConsecutiveSafeAux, safeRunMax]
    omega
  | cons a rest ih =>
    intro m c hc
    simp only [maxConsecutiveSafeAux, safeRunMax]
    by_cases h : a.is_safe
    · rw [if_pos h, if_pos h]
      rw [ih (max m (c + 1)) (c + 1) (le_max_right _ _)]
      have := safeRunMax_ge rest (c + 1)
      omega
    · rw [if_neg h, if_neg h]
      rw [ih m 0 (Nat.zero_le m)]
      omega

/-- `_max_consecutive_safe` equals the run recursion started empty. -/
theorem max_consecutive_safe_eq (l : List AttemptView) :
    max_consecutive_safe l = safeRunMax 0 l := by
  have := maxConsecutiveSafeAux_eq l 0 0 (le_refl 0)
  simpa [max_consecutive_safe] using this

/-- Every attempt list is all-safe or splits at its first unsafe attempt. -/
theorem safe_decomp (l : List AttemptView) :
    (∀ a ∈ l, a.is_safe = true) ∨
    ∃ sp u rest, l = sp ++ u :: rest ∧ (∀ a ∈ sp, a.is_safe = true) ∧
      u.is_safe = false := by
  induction l with
  | nil => exact Or.inl (by simp)
  | cons a rest ih =>
    by_cases h : a.is_safe
    · rcases ih with hall | ⟨sp, u, tail, rfl, hsp, hu⟩
      · refine Or.inl ?_
        intro b hb
        rcases List.mem_cons.mp hb with rfl | hb
        · exact h
        · exact hall b hb
      · refine Or.inr ⟨a :: sp, u, tail, rfl, ?_, hu⟩
        intro b hb
        rcases List.mem_cons.mp hb with rfl | hb
        · exact h
        · exact hsp b hb
    · exact Or.inr ⟨[], a, rest, rfl, by simp, Bool.not_eq_true _ ▸ by simpa using h⟩

/-- On an all-safe list the run recursion counts the whole list. -/
theorem safeRunMax_all_safe (l : List AttemptView)
    (h : ∀ a ∈ l, a.is_safe = true) : ∀ c, safeRunMax c l = c + l.length := by
  induction l with
  | nil => intro c; simp [safeRunMax]
  | cons a rest ih =>
    intro c
    simp only [safeRunMax, if_pos (h a (List.mem_cons_self _ _))]
    rw [ih (fun b hb => h b (List.mem_cons_of_mem _ hb))]
    simp only [List.length_cons]
    omega

/-- The run recursion across the first unsafe attempt. -/
theorem safeRunMax_split (sp : List AttemptView) (u : AttemptView)
    (rest : List AttemptView) (hsp : ∀ a ∈ sp, a.is_safe = true)
    (hu : u.is_safe = false) :
    ∀ c, safeRunMax c (sp ++ u :: rest) = max (c + sp.length) (safeRunMax 0 rest) := by
  induction sp with
  | nil =>
    intro c
    simp only [List.nil_append, safeRunMax, hu]
    simp
  | cons a sp' ih =>
    intro c
    have hstep : safeRunMax c ((a :: sp') ++ u :: rest) =
        safeRunMax (c + 1) (sp' ++ u :: rest) := by
      simp only [List.cons_append, safeRunMax,
        if_pos (hsp a (List.mem_cons_self _ _))]
      rfl
    rw [hstep, ih (fun b hb => hsp b (List.mem_cons_of_mem _ hb))]
    simp only [List.length_cons]
    omega

/-- On an all-safe history, a ≥ k run exists exactly when k ≤ length. -/
theorem hasSafeRunSpec_all_safe (l : List AttemptView) (k : Nat)
    (h : ∀ a ∈ l, a.is_safe = true) :
    hasSafeRunSpec l k ↔ k ≤ l.length := by
  constructor
  · rintro ⟨l1, l2, l3, rfl, _, hk⟩
    simp only [List.length_append]
    omega
  · intro hk
    exact ⟨[], l, [], by simp, h, hk⟩

/-- A safe run cannot contain the unsafe attempt, so it lies entirely in
the safe head segment or entirely in the tail. -/
theorem hasSafeRunSpec_split (sp : List AttemptView) (u : AttemptView)
    (rest : List AttemptView) (hsp : ∀ a ∈ sp, a.is_safe = true)
    (hu : u.is_safe = false) (k : Nat) :
    hasSafeRunSpec (sp ++ u :: rest) k ↔ k ≤ sp.length ∨ hasSafeRunSpec rest k := by
  constructor
  · rintro ⟨l1, l2, l3, heq, h2, hk⟩
    by_cases hcase : l1.length + l2.length ≤ sp.length
    · left
      omega
    · by_cases hcase2 : sp.length + 1 ≤ l1.length
      · -- the run lies entirely inside `rest`
        right
        have htake : List.take (sp.length + 1) (sp ++ u :: rest) = sp ++ [u] := by
          rw [List.take_append_eq_append_take,
            List.take_of_length_le (Nat.le_succ _),
            show sp.length + 1 - sp.length = 1 from by omega]
          rfl
        have htakeL : List.take (sp.length + 1) l1 = sp ++ [u] := by
          have h := congrArg (List.take (sp.length + 1)) heq
          rw [htake, List.append_assoc, List.take_append_eq_append_take,
            show sp.length + 1 - l1.length = 0 from by omega] at h
          simpa using h.symm
        have hl1 : l1 = (sp ++ [u]) ++ List.drop (sp.length + 1) l1 := by
          conv_lhs => rw [← List.take_append_drop (sp.length + 1) l1]
          rw [htakeL]
        have heq2 : (sp ++ [u]) ++ rest =
            (sp ++ [u]) ++ (List.drop (sp.length + 1) l1 ++ l2 ++ l3) := by
          calc (sp ++ [u]) ++ rest = sp ++ u :: rest := by simp
            _ = l1 ++ l2 ++ l3 := heq
            _ = ((sp ++ [u]) ++ List.drop (sp.length + 1) l1) ++ l2 ++ l3 := by
                rw [← hl1]
            _ = (sp ++ [u]) ++ (List.drop (sp.length + 1) l1 ++ l2 ++ l3) := by
                simp [List.append_assoc]
        exact ⟨List.drop (sp.length + 1) l1, l2, l3,
          List.append_cancel_left heq2, h2, hk⟩
      · -- otherwise the unsafe attempt `u` would sit inside the safe run
        exfalso
        have hl1 : l1.length ≤ sp.length := by omega
        have hdrop : List.drop l1.length sp ++ u :: rest = l2 ++ l3 := by
          have h := congrArg (List.drop l1.length) heq
          rw [List.append_assoc, List.drop_append_eq_append_drop,
            List.drop_append_eq_append_drop, List.drop_length,
            show l1.length - sp.length = 0 from by omega] at h
          simpa using h
        obtain ⟨m, hm⟩ :
            ∃ m, l2.length - (List.drop l1.length sp).length = m + 1 :=
          ⟨l2.length - (List.drop l1.length sp).length - 1, by
            rw [List.length_drop]; omega⟩
        have hl2 : l2 = List.take l2.length (List.drop l1.length sp) ++
            u :: List.take m rest := by
          have h := congrArg (List.take l2.length) hdrop
          rw [List.take_append_eq_append_take, hm, List.take_succ_cons,
            List.take_left] at h
          exact h.symm
        have humem : u ∈ l2 := by
          rw [hl2]
          simp
        have hsafe := h2 u humem
        rw [hu] at hsafe
        exact Bool.false_ne_true hsafe
  · rintro (hk | ⟨l1, l2, l3, rfl, h2, hk⟩)
    · exact ⟨[], sp, u :: rest, by simp, hsp, hk⟩
    · exact ⟨sp ++ u :: l1, l2, l3, by simp, h2, hk⟩

/-- The fuelled main equivalence: the computed longest consecutive-safe
run is at least k exactly when the history contains a safe run of length
at least k. -/
theorem safeRunMax_iff_hasSafeRun : ∀ (n : Nat) (l : List AttemptView),
    l.length ≤ n → ∀ k, (k ≤ safeRunMax 0 l ↔ hasSafeRunSpec l k) := by
  intro n
  induction n with
  | zero =>
    intro l hl k
    have : l = [] := List.length_eq_zero.mp (Nat.le_zero.mp hl)
    subst this
    rw [hasSafeRunSpec_all_safe _ _ (by simp)]
    simp [safeRunMax]
  | succ n ih =>
    intro l hl k
    rcases safe_decomp l with hall | ⟨sp, u, rest, rfl, hsp, hu⟩
    · rw [hasSafeRunSpec_all_safe _ _ hall, safeRunMax_all_safe _ hall]
      omega
    · rw [safeRunMax_split sp u rest hsp hu, hasSafeRunSpec_split sp u rest hsp hu]
      have hrest : rest.length ≤ n := by
        have := hl
        simp only [List.length_append, List.length_cons] at this
        omega
      rw [← ih rest hrest k]
      omega

/-- C10: `no_click_hero` unlocks iff the history contains at least 3
consecutive safe attempts (checked on the spec's three example histories),
`phishing_detector` unlocks iff `correct_count ≥ 5`, and
`calm_under_pressure` unlocks iff at least 2 safe attempts have recorded
tactic "Urgency"; the three rules are evaluated independently of each
other. -/
theorem c10_achievements (correct_count : Int) (l : List AttemptView) :
    (∀ a ∈ compute_achievements correct_count l,
      (a.id = "no_click_hero" → (a.unlocked = true ↔ hasSafeRunSpec l 3)) ∧
      (a.id = "phishing_detector" → (a.unlocked = true ↔ 5 ≤ correct_count)) ∧
      (a.id = "calm_under_pressure" → (a.unlocked = true ↔
        2 ≤ (l.filter (fun a => a.tactic = "Urgency" ∧ a.is_safe = true)).length))) ∧
    ((compute_achievements correct_count l).map (fun a => a.id) =
      ["no_click_hero", "phishing_detector", "calm_under_pressure"]) ∧
    ((compute_achievements 0
        [⟨true, "Fear"⟩, ⟨true, "Fear"⟩, ⟨true, "Fear"⟩]).map (fun a => a.unlocked) =
      [true, false, false]) ∧
    ((compute_achievements 0
        [⟨true, "Fear"⟩, ⟨false, "Fear"⟩, ⟨true, "Fear"⟩,
         ⟨true, "Fear"⟩]).map (fun a => a.unlocked) =
      [false, false, false]) ∧
    ((compute_achievements 0
        [⟨true, "Fear"⟩, ⟨true, "Fear"⟩, ⟨false, "Fear"⟩, ⟨true, "Fear"⟩,
         ⟨true, "Fear"⟩, ⟨true, "Fear"⟩]).map (fun a => a.unlocked) =
      [true, false, false]) := by
  refine ⟨?_, by simp [compute_achievements], by decide, by decide, by decide⟩
  intro a ha
  have hrun : (decide (3 ≤ max_consecutive_safe l) = true) ↔ hasSafeRunSpec l 3 := by
    rw [decide_eq_true_iff, max_consecutive_safe_eq]
    exact safeRunMax_iff_hasSafeRun l.length l (le_refl _) 3
  simp only [compute_achievements, List.mem_cons, List.not_mem_nil, or_false] at ha
  rcases ha with rfl | rfl | rfl
  · refine ⟨fun _ => hrun, fun h => ?_, fun h => ?_⟩ <;> simp at h
  · refine ⟨fun h => ?_, fun _ => ?_, fun h => ?_⟩
    · simp at h
    · simp [urgency_safe_count]
    · simp at h
  · refine ⟨fun h => ?_, fun h => ?_, fun _ => ?_⟩
    · simp at h
    · simp at h
    · simp only [decide_eq_true_iff, urgency_safe_count]

/-- Witness for C10: the `no_click_hero` rule on a 3-safe-attempt
history. -/
theorem c10_witness :
    ((⟨"no_click_hero", "Без клика", true⟩ : AchievementSchema).unlocked = true ↔
      hasSafeRunSpec
        [⟨true, "Urgency"⟩, ⟨true, "Urgency"⟩, ⟨true, "Urgency"⟩] 3) :=
  ((c10_achievements 5
      [⟨true, "Urgency"⟩, ⟨true, "Urgency"⟩, ⟨true, "Urgency"⟩]).1
    ⟨"no_click_hero", "Без клика", true⟩ (by decide)).1 rfl

/-- Inserting for the stable descending sort permutes. -/
theorem insertDescByCount_perm (x : TacticBreakdownSchema) :
    ∀ m, List.Perm (insertDescByCount x m) (x :: m) := by
  intro m
  induction m with
  | nil => exact List.Perm.refl _
  | cons y ys ih =>
    simp only [insertDescByCount]
    by_cases h : y.mistake_count ≤ x.mistake_count
    · rw [if_pos h]
    · rw [if_neg h]
      exact (ih.cons y).trans (List.Perm.swap x y ys)

/-- The stable descending sort is a permutation of its input. -/
theorem sortedByCountDesc_perm (l : List TacticBreakdownSchema) :
    List.Perm (sortedByCountDesc l) l := by
  induction l with
  | nil => exact List.Perm.refl _
  | cons x tail ih =>
    exact (insertDescByCount_perm x (sortedByCountDesc tail)).trans (ih.cons x)

/-- The spec-side sort is a permutation of its input. -/
theorem insertByMistakesThenPriority_perm (x : TacticBreakdownSchema) :
    ∀ m, List.Perm (insertByMistakesThenPriority x m) (x :: m) := by
  intro m
  induction m with
  | nil => exact List.Perm.refl _
  | cons y ys ih =>
    simp only [insertByMistakesThenPriority]
    by_cases h : y.mistake_count < x.mistake_count ∨
        (x.mistake_count = y.mistake_count ∧
          priorityIndex x.tactic ≤ priorityIndex y.tactic)
    · rw [if_pos h]
    · rw [if_neg h]
      exact (ih.cons y).trans (List.Perm.swap x y ys)

/-- Permutation for `sortByMistakesThenPriority`. -/
theorem sortByMistakesThenPriority_perm (l : List TacticBreakdownSchema) :
    List.Perm (sortByMistakesThenPriority l) l := by
  induction l with
  | nil => exact List.Perm.refl _
  | cons x tail ih =>
    exact (insertByMistakesThenPriority_perm x
      (sortByMistakesThenPriority tail)).trans (ih.cons x)

/-- When the inserted element precedes everything in the list in the fixed
priority order, the stable count-insertion and the lexicographic
(count, priority) insertion coincide. -/
theorem insertDescByCount_eq_lex (x : TacticBreakdownSchema) :
    ∀ m, (∀ y ∈ m, priorityIndex x.tactic < priorityIndex y.tactic) →
    insertDescByCount x m = insertByMistakesThenPriority x m := by
  intro m
  induction m with
  | nil => intro _; rfl
  | cons y ys ih =>
    intro h
    have hy := h y (List.mem_cons_self _ _)
    simp only [insertDescByCount, insertByMistakesThenPriority]
    by_cases hc : y.mistake_count ≤ x.mistake_count
    · rw [if_pos hc, if_pos ?_]
      rcases lt_or_eq_of_le hc with hlt | heq
      · exact Or.inl hlt
      · exact Or.inr ⟨heq.symm, le_of_lt hy⟩
    · rw [if_neg hc, if_neg ?_, ih (fun z hz => h z (List.mem_cons_of_mem _ hz))]
      intro hcon
      rcases hcon with hlt | ⟨heq, _⟩
      · omega
      · omega

/-- On a list whose tactics appear in strictly increasing priority order
(as both routers construct the breakdown), Python's stable descending sort
by mistake count equals the spec's "descending count, ties by fixed
priority order" ordering. -/
theorem sortedByCountDesc_eq_spec (l : List TacticBreakdownSchema)
    (h : l.Pairwise (fun a b => priorityIndex a.tactic < priorityIndex b.tactic)) :
    sortedByCountDesc l = sortByMistakesThenPriority l := by
  induction l with
  | nil => rfl
  | cons x tail ih =>
    rcases List.pairwise_cons.mp h with ⟨hx, htail⟩
    have hrec : sortedByCountDesc tail = sortByMistakesThenPriority tail := ih htail
    have hstep : sortedByCountDesc (x :: tail) =
        insertDescByCount x (sortedByCountDesc tail) := rfl
    have hstep2 : sortByMistakesThenPriority (x :: tail) =
        insertByMistakesThenPriority x (sortByMistakesThenPriority tail) := rfl
    rw [hstep, hstep2, hrec]
    apply insertDescByCount_eq_lex
    intro y hy
    exact hx y ((sortByMistakesThenPriority_perm tail).mem_iff.mp hy)

/-- Characterization of the first loop of `get_tips_for_weak_tactics` on a
breakdown with distinct tactics that all have tips: it appends the tips of
the positive-mistake entries, up to the remaining quota, and marks exactly
those tactics as seen. -/
theorem tipsLoopSorted_spec (max_tips : Nat) :
    ∀ (S : List TacticBreakdownSchema) (tips : List TipSchema) (seen : List String),
    tips.length < max_tips →
    (S.map (fun t => t.tactic)).Nodup →
    (∀ t ∈ S, t.tactic ∉ seen) →
    (∀ t ∈ S, (tacticTipGet t.tactic).isSome) →
    (tipsLoopSorted max_tips S tips seen).1 =
      tips ++ (((S.filter (fun t => decide (¬ t.mistake_count ≤ 0))).take
        (max_tips - tips.length)).map tipFor) ∧
    (∀ x, x ∈ (tipsLoopSorted max_tips S tips seen).2 ↔
      x ∈ seen ∨ x ∈ (((S.filter (fun t => decide (¬ t.mistake_count ≤ 0))).take
        (max_tips - tips.length)).map (fun t => t.tactic))) := by
  intro S
  induction S with
  | nil =>
    intro tips seen _ _ _ _
    simp [tipsLoopSorted]
  | cons t rest ih =>
    intro tips seen hlen hnodup hseen htip
    have hnodup' : (rest.map (fun t => t.tactic)).Nodup := by
      simpa using hnodup.of_cons
    have hseen' : ∀ t' ∈ rest, t'.tactic ∉ seen :=
      fun t' ht' => hseen t' (List.mem_cons_of_mem _ ht')
    have htip' : ∀ t' ∈ rest, (tacticTipGet t'.tactic).isSome :=
      fun t' ht' => htip t' (List.mem_cons_of_mem _ ht')
    by_cases hz : t.mistake_count ≤ 0
    · have hstep : tipsLoopSorted max_tips (t :: rest) tips seen =
          tipsLoopSorted max_tips rest tips seen := by
        simp only [tipsLoopSorted, if_pos hz]
      have hfil : (t :: rest).filter (fun t => decide (¬ t.mistake_count ≤ 0)) =
          rest.filter (fun t => decide (¬ t.mistake_count ≤ 0)) := by
        simp [List.filter_cons, hz]
      rw [hstep, hfil]
      exact ih tips seen hlen hnodup' hseen' htip'
    · have hmem : t.tactic ∉ seen := hseen t (List.mem_cons_self _ _)
      obtain ⟨txt, htxt⟩ : ∃ txt, tacticTipGet t.tactic = some txt := by
        have := htip t (List.mem_cons_self _ _)
        cases h : tacticTipGet t.tactic with
        | none => rw [h] at this; simp at this
        | some v => exact ⟨v, rfl⟩
      have htipFor : tipFor t = ⟨t.tactic, txt⟩ := by
        simp [tipFor, htxt]
      have hfil : (t :: rest).filter (fun t => decide (¬ t.mistake_count ≤ 0)) =
          t :: rest.filter (fun t => decide (¬ t.mistake_count ≤ 0)) := by
        simp [List.filter_cons, hz]
      have hstep : tipsLoopSorted max_tips (t :: rest) tips seen =
          (if max_tips ≤ (tips ++ [(⟨t.tactic, txt⟩ : TipSchema)]).length then
            (tips ++ [(⟨t.tactic, txt⟩ : TipSchema)], t.tactic :: seen)
          else tipsLoopSorted max_tips rest (tips ++ [(⟨t.tactic, txt⟩ : TipSchema)])
            (t.tactic :: seen)) := by
        simp only [tipsLoopSorted, if_neg hz, if_neg hmem, htxt]
      rw [hstep, hfil]
      by_cases hfull : max_tips ≤ (tips ++ [(⟨t.tactic, txt⟩ : TipSchema)]).length
      · rw [if_pos hfull]
        have hlen1 : (tips ++ [(⟨t.tactic, txt⟩ : TipSchema)]).length =
            tips.length + 1 := by simp
        have hq : max_tips - tips.length = 1 := by
          rw [hlen1] at hfull
          omega
        rw [hq]
        constructor
        · simp [htipFor]
        · intro x
          simp [List.mem_cons]
          tauto
      · rw [if_neg hfull]
        have hlen1 : (tips ++ [(⟨t.tactic, txt⟩ : TipSchema)]).length =
            tips.length + 1 := by simp
        have hlt : (tips ++ [(⟨t.tactic, txt⟩ : TipSchema)]).length < max_tips := by
          omega
        have hseen2 : ∀ t' ∈ rest, t'.tactic ∉ t.tactic :: seen := by
          intro t' ht'
          simp only [List.mem_cons, not_or]
          refine ⟨?_, hseen' t' ht'⟩
          have := hnodup
          simp only [List.map_cons, List.nodup_cons] at this
          intro hcontra
          exact this.1 (hcontra ▸ List.mem_map_of_mem _ ht')
        obtain ⟨ih1, ih2⟩ := ih (tips ++ [(⟨t.tactic, txt⟩ : TipSchema)]) (t.tactic :: seen)
          hlt hnodup' hseen2 htip'
        constructor
        · rw [ih1]
          have harith : max_tips - (tips ++ [(⟨t.tactic, txt⟩ : TipSchema)]).length =
              max_tips - tips.length - 1 := by
            rw [hlen1]; omega
          obtain ⟨k, hk⟩ : ∃ k, max_tips - tips.length = k + 1 :=
            ⟨max_tips - tips.length - 1, by omega⟩
          rw [harith, hk]
          simp [htipFor]
        · intro x
          rw [ih2 x]
          obtain ⟨k, hk⟩ : ∃ k, max_tips - tips.length = k + 1 :=
            ⟨max_tips - tips.length - 1, by omega⟩
          have harith : max_tips - (tips ++ [(⟨t.tactic, txt⟩ : TipSchema)]).length = k := by
            rw [hlen1]; omega
          rw [harith, hk]
          simp [List.mem_cons]
          tauto

/-- Characterization of the padding loop of `get_tips_for_weak_tactics`:
it appends, in table order, tips for the unseen tactics up to the
remaining quota. -/
theorem tipsPadLoop_spec (max_tips : Nat) :
    ∀ (L : List (String × String)) (tips : List TipSchema) (seen : List String),
    (L.map (fun kv => kv.1)).Nodup →
    tipsPadLoop max_tips L tips seen =
      tips ++ ((L.filter (fun kv => decide (kv.1 ∉ seen))).take
        (max_tips - tips.length)).map (fun kv => ⟨kv.1, kv.2⟩) := by
  intro L
  induction L with
  | nil => intro tips seen _; simp [tipsPadLoop]
  | cons kv rest ih =>
    intro tips seen hnodup
    obtain ⟨tac, txt⟩ := kv
    have hnodup' : (rest.map (fun kv => kv.1)).Nodup := by
      simpa using hnodup.of_cons
    by_cases hfull : max_tips ≤ tips.length
    · have hstep : tipsPadLoop max_tips ((tac, txt) :: rest) tips seen = tips := by
        simp only [tipsPadLoop, if_pos hfull]
      have hz : max_tips - tips.length = 0 := by omega
      rw [hstep, hz]
      simp
    · by_cases hseen : tac ∈ seen
      · have hstep : tipsPadLoop max_tips ((tac, txt) :: rest) tips seen =
            tipsPadLoop max_tips rest tips seen := by
          simp only [tipsPadLoop, if_neg hfull, if_pos hseen]
        have hfil : ((tac, txt) :: rest).filter (fun kv => decide (kv.1 ∉ seen)) =
            rest.filter (fun kv => decide (kv.1 ∉ seen)) := by
          simp [List.filter_cons, hseen]
        rw [hstep, hfil]
        exact ih tips seen hnodup'
      · have hstep : tipsPadLoop max_tips ((tac, txt) :: rest) tips seen =
            tipsPadLoop max_tips rest (tips ++ [(⟨tac, txt⟩ : TipSchema)]) (tac :: seen) := by
          simp only [tipsPadLoop, if_neg hfull, if_neg hseen]
        have hfil : ((tac, txt) :: rest).filter (fun kv => decide (kv.1 ∉ seen)) =
            (tac, txt) :: rest.filter (fun kv => decide (kv.1 ∉ seen)) := by
          simp [List.filter_cons, hseen]
        have hrestfil : rest.filter (fun kv => decide (kv.1 ∉ tac :: seen)) =
            rest.filter (fun kv => decide (kv.1 ∉ seen)) := by
          apply List.filter_congr
          intro kv' hkv'
          have hne : kv'.1 ≠ tac := by
            have := hnodup
            simp only [List.map_cons, List.nodup_cons] at this
            intro hcontra
            exact this.1 (hcontra ▸ List.mem_map_of_mem _ hkv')
          simp [List.mem_cons, hne]
        rw [hstep, ih (tips ++ [(⟨tac, txt⟩ : TipSchema)]) (tac :: seen) hnodup', hrestfil, hfil]
        obtain ⟨k, hk⟩ : ∃ k, max_tips - tips.length = k + 1 :=
          ⟨max_tips - tips.length - 1, by omega⟩
        have harith : max_tips - (tips ++ [(⟨tac, txt⟩ : TipSchema)]).length = k := by
          simp only [List.length_append, List.length_singleton]
          omega
        rw [harith, hk]
        simp

/-- Truncating an already quota-truncated padding does not differ from
truncating the full concatenation. -/
theorem take_append_take {A : Type} (l1 l2 : List A) (n : Nat)
    (h : l1.length <= n) :
    (l1 ++ l2.take (n - l1.length)).take n = (l1 ++ l2).take n := by
  rw [List.take_append_eq_append_take, List.take_append_eq_append_take,
    List.take_of_length_le h, List.take_take, min_self]

/-- C7: for every mistake-count breakdown over the fixed 5-tactic set (in
the construction order both routers use) and every `max_tips`,
`get_tips_for_weak_tactics` returns exactly the spec's ordering —
descending mistake count, ties broken by the fixed priority order
(Urgency, Authority, Scarcity, Reciprocity, Fear), zero-mistake tactics
skipped and then used as padding in priority order, truncated at
`max_tips`; in particular breakdown (Urgency 3, Fear 1, rest 0) with
`max_tips = 3` yields [Urgency, Fear, Authority]. -/
theorem c7_weak_tactic_tips (u a s r f : Nat) (max_tips : Nat) :
    get_tips_for_weak_tactics (breakdown5 u a s r f) max_tips =
      weak_tactic_tips_spec u a s r f max_tips ∧
    (get_tips_for_weak_tactics (breakdown5 3 0 0 0 1) 3).map (fun t => t.tactic) =
      ["Urgency", "Fear", "Authority"] := by
  refine ⟨?_, by decide⟩
  rcases Nat.eq_zero_or_pos max_tips with hmax | hmax
  · subst hmax
    simp [get_tips_for_weak_tactics, weak_tactic_tips_spec]
  · have hbdmap : (breakdown5 u a s r f).map (fun t => t.tactic) =
        ["Urgency", "Authority", "Scarcity", "Reciprocity", "Fear"] := by
      simp [breakdown5]
    have hpair : (breakdown5 u a s r f).Pairwise
        (fun x y => priorityIndex x.tactic < priorityIndex y.tactic) := by
      have hmap : (((breakdown5 u a s r f).map (fun t => t.tactic)).Pairwise
          (fun x y => priorityIndex x < priorityIndex y)) := by
        rw [hbdmap]
        decide
      exact (List.pairwise_map.mp hmap).imp (fun h => h)
    have hsorteq : sortedByCountDesc (breakdown5 u a s r f) =
        sortByMistakesThenPriority (breakdown5 u a s r f) :=
      sortedByCountDesc_eq_spec _ hpair
    set bd := breakdown5 u a s r f with hbd
    set m := sortedByCountDesc bd with hm
    set nz := m.filter (fun t => decide (0 < t.mistake_count)) with hnz
    have hperm : List.Perm m bd := sortedByCountDesc_perm bd
    have hnodup : (m.map (fun t => t.tactic)).Nodup := by
      rw [(hperm.map (fun t => t.tactic)).nodup_iff]
      rw [hbd, hbdmap]
      decide
    have htacmem : ∀ t ∈ m, t.tactic = "Urgency" ∨ t.tactic = "Authority" ∨
        t.tactic = "Scarcity" ∨ t.tactic = "Reciprocity" ∨ t.tactic = "Fear" := by
      intro t ht
      have htb : t.tactic ∈ bd.map (fun t => t.tactic) :=
        List.mem_map_of_mem _ (hperm.mem_iff.mp ht)
      rw [hbd, hbdmap] at htb
      simpa using htb
    have htipsome : ∀ t ∈ m, (tacticTipGet t.tactic).isSome := by
      intro t ht
      rcases htacmem t ht with h | h | h | h | h <;> rw [h] <;> decide
    have hnonneg : ∀ t ∈ m, (0 : Int) ≤ t.mistake_count := by
      intro t ht
      have htb : t ∈ bd := hperm.mem_iff.mp ht
      simp only [hbd, breakdown5, List.mem_cons, List.not_mem_nil, or_false] at htb
      rcases htb with rfl | rfl | rfl | rfl | rfl <;>
        exact Int.natCast_nonneg _
    obtain ⟨hT1, hS1⟩ := tipsLoopSorted_spec max_tips m [] []
      (by simpa using hmax) hnodup (by simp) htipsome
    have hT1' : (tipsLoopSorted max_tips m [] []).1 =
        (nz.map tipFor).take max_tips := by
      simpa using hT1
    have hS1' : ∀ x, x ∈ (tipsLoopSorted max_tips m [] []).2 ↔
        x ∈ ((nz.map (fun t => t.tactic)).take max_tips) := by
      intro x
      simpa using hS1 x
    have hpad := tipsPadLoop_spec max_tips TACTIC_TIPS
      (tipsLoopSorted max_tips m [] []).1 (tipsLoopSorted max_tips m [] []).2
      (by decide)
    have himpl : get_tips_for_weak_tactics bd max_tips =
        (tipsPadLoop max_tips TACTIC_TIPS (tipsLoopSorted max_tips m [] []).1
          (tipsLoopSorted max_tips m [] []).2).take max_tips := rfl
    have hspec : weak_tactic_tips_spec u a s r f max_tips =
        ((nz ++ bd.filter (fun t => decide (t.mistake_count = 0))).map
          tipFor).take max_tips := by
      simp only [weak_tactic_tips_spec]
      have h1 : (sortByMistakesThenPriority (breakdown5 u a s r f)).filter
          (fun t => decide (¬ t.mistake_count = 0)) = nz := by
        rw [← hsorteq]
        apply List.filter_congr
        intro t ht
        have h0 := hnonneg t ht
        simp only [decide_eq_decide]
        omega
      rw [h1]
    by_cases hcase : max_tips ≤ nz.length
    · have hlen1 : ((nz.map tipFor).take max_tips).length = max_tips := by
        simp only [List.length_take, List.length_map]
        omega
      have hq : max_tips - ((tipsLoopSorted max_tips m [] []).1).length = 0 := by
        rw [hT1', hlen1]
        omega
      rw [himpl, hpad, hq]
      simp only [List.take_zero, List.map_nil, List.append_nil]
      rw [hT1', hspec, List.map_append, List.take_append_eq_append_take]
      have hz2 : max_tips - (nz.map tipFor).length = 0 := by
        simp only [List.length_map]
        omega
      rw [hz2, List.take_zero, List.append_nil, List.take_take, min_self]
    · push_neg at hcase
      have htake_all : (nz.map tipFor).take max_tips = nz.map tipFor :=
        List.take_of_length_le (by simp only [List.length_map]; omega)
      have htake_all2 : (nz.map (fun t => t.tactic)).take max_tips =
          nz.map (fun t => t.tactic) :=
        List.take_of_length_le (by simp only [List.length_map]; omega)
      have hT1b : (tipsLoopSorted max_tips m [] []).1 = nz.map tipFor := by
        rw [hT1', htake_all]
      have hlenA : ((tipsLoopSorted max_tips m [] []).1).length = nz.length := by
        rw [hT1b]
        simp
      have hmemx : ∀ x, x ∈ (tipsLoopSorted max_tips m [] []).2 ↔
          x ∈ ((bd.filter (fun t => decide (0 < t.mistake_count))).map
            (fun t => t.tactic)) := by
        intro x
        rw [hS1' x, htake_all2, hnz]
        exact ((hperm.filter _).map _).mem_iff
      have hzeros : ((TACTIC_TIPS.filter (fun kv =>
            decide (kv.1 ∉ (tipsLoopSorted max_tips m [] []).2))).map
          (fun kv => (⟨kv.1, kv.2⟩ : TipSchema))) =
          (bd.filter (fun t => decide (t.mistake_count = 0))).map tipFor := by
        have hcondU : decide ("Urgency" ∉ (tipsLoopSorted max_tips m [] []).2) =
            decide ((u : Int) = 0) := by
          rw [decide_eq_decide, hmemx]
          simp [hbd, breakdown5]
        have hcondA : decide ("Authority" ∉ (tipsLoopSorted max_tips m [] []).2) =
            decide ((a : Int) = 0) := by
          rw [decide_eq_decide, hmemx]
          simp [hbd, breakdown5]
        have hcondS : decide ("Scarcity" ∉ (tipsLoopSorted max_tips m [] []).2) =
            decide ((s : Int) = 0) := by
          rw [decide_eq_decide, hmemx]
          simp [hbd, breakdown5]
        have hcondR : decide ("Reciprocity" ∉ (tipsLoopSorted max_tips m [] []).2) =
            decide ((r : Int) = 0) := by
          rw [decide_eq_decide, hmemx]
          simp [hbd, breakdown5]
        have hcondF : decide ("Fear" ∉ (tipsLoopSorted max_tips m [] []).2) =
            decide ((f : Int) = 0) := by
          rw [decide_eq_decide, hmemx]
          simp [hbd, breakdown5]
        simp only [TACTIC_TIPS, hbd, breakdown5, List.filter_cons,
          List.filter_nil, hcondU, hcondA, hcondS, hcondR, hcondF]
        split_ifs <;> rfl
      rw [himpl, hpad, List.map_take, hzeros, hT1b, hspec, List.map_append]
      exact take_append_take _ _ _ (by simp only [List.length_map]; omega)

/-- Decoding a base64 alphabet character recovers its 6-bit value. -/
theorem b64val_b64char : ∀ v : Fin 64, b64val (b64char v.val) = some v.val := by
  decide

/-- Alphabet characters are not padding. -/
theorem b64char_ne_pad : ∀ v : Fin 64, b64char v.val ≠ '=' := by
  decide

/-- Alphabet characters are not the dot separator. -/
theorem b64char_ne_dot : ∀ v : Fin 64, b64char v.val ≠ '.' := by
  decide

/-- The padded encoding is the alphabet part plus its padding. -/
theorem b64encodeBody_eq : ∀ bs : List Nat,
    b64encodeBody bs = b64encNoPad bs ++ List.replicate (b64padCount bs) '='
  | [] => rfl
  | [_] => rfl
  | [_, _] => rfl
  | b0 :: b1 :: b2 :: rest => by
    simp only [b64encodeBody, b64encNoPad, b64padCount,
      b64encodeBody_eq rest, List.cons_append]

/-- Every character of the alphabet part is an alphabet character. -/
theorem b64encNoPad_alphabet : ∀ bs : List Nat, (∀ b ∈ bs, b < 256) →
    ∀ c ∈ b64encNoPad bs, ∃ v : Fin 64, c = b64char v.val
  | [], _, c, hc => by simp [b64encNoPad] at hc
  | [b0], h, c, hc => by
    have hb0 : b0 < 256 := h b0 (by simp)
    simp only [b64encNoPad, List.mem_cons, List.not_mem_nil, or_false] at hc
    rcases hc with rfl | rfl
    · exact ⟨⟨b0 / 4, by omega⟩, rfl⟩
    · exact ⟨⟨(b0 % 4) * 16, by omega⟩, rfl⟩
  | [b0, b1], h, c, hc => by
    have hb0 : b0 < 256 := h b0 (by simp)
    have hb1 : b1 < 256 := h b1 (by simp)
    simp only [b64encNoPad, List.mem_cons, List.not_mem_nil, or_false] at hc
    rcases hc with rfl | rfl | rfl
    · exact ⟨⟨b0 / 4, by omega⟩, rfl⟩
    · exact ⟨⟨(b0 % 4) * 16 + b1 / 16, by omega⟩, rfl⟩
    · exact ⟨⟨(b1 % 16) * 4, by omega⟩, rfl⟩
  | b0 :: b1 :: b2 :: rest, h, c, hc => by
    have hb0 : b0 < 256 := h b0 (by simp)
    have hb1 : b1 < 256 := h b1 (by simp)
    have hb2 : b2 < 256 := h b2 (by simp)
    simp only [b64encNoPad, List.mem_cons] at hc
    rcases hc with rfl | rfl | rfl | rfl | hc
    · exact ⟨⟨b0 / 4, by omega⟩, rfl⟩
    · exact ⟨⟨(b0 % 4) * 16 + b1 / 16, by omega⟩, rfl⟩
    · exact ⟨⟨(b1 % 16) * 4 + b2 / 64, by omega⟩, rfl⟩
    · exact ⟨⟨b2 % 64, by omega⟩, rfl⟩
    · exact b64encNoPad_alphabet rest
        (fun b hb => h b (by simp [hb])) c hc

/-- No character of the alphabet part is `=` or `.`. -/
theorem b64encNoPad_ne (bs : List Nat) (h : ∀ b ∈ bs, b < 256) :
    ∀ c ∈ b64encNoPad bs, c ≠ '=' ∧ c ≠ '.' := by
  intro c hc
  obtain ⟨v, rfl⟩ := b64encNoPad_alphabet bs h c hc
  exact ⟨b64char_ne_pad v, b64char_ne_dot v⟩

/-- Dropping a leading block of matching characters. -/
theorem dropWhile_replicate_append (p : Char → Bool) (x : Char)
    (hp : p x = true) :
    ∀ (k : Nat) (ys : List Char),
    (List.replicate k x ++ ys).dropWhile p = ys.dropWhile p := by
  intro k
  induction k with
  | zero => intro ys; simp
  | succ k ih =>
    intro ys
    simp only [List.replicate_succ, List.cons_append, List.dropWhile_cons, hp,
      if_true]
    exact ih ys

/-- A list with no matching characters is untouched by `dropWhile`. -/
theorem dropWhile_eq_self_of_none (p : Char → Bool) :
    ∀ l : List Char, (∀ c ∈ l, p c = false) → l.dropWhile p = l := by
  intro l
  induction l with
  | nil => intro _; rfl
  | cons c rest ih =>
    intro h
    rw [List.dropWhile_cons, h c (List.mem_cons_self _ _)]
    simp

/-- `rstrip("=")` of a pad-free prefix plus padding gives the prefix. -/
theorem rstripEq_append_replicate (xs : List Char) (k : Nat)
    (h : ∀ c ∈ xs, c ≠ '=') :
    rstripEq (xs ++ List.replicate k '=') = xs := by
  unfold rstripEq
  rw [List.reverse_append, List.reverse_replicate]
  rw [dropWhile_replicate_append _ '=' (by simp) k xs.reverse]
  rw [dropWhile_eq_self_of_none _ xs.reverse ?_, List.reverse_reverse]
  intro c hc
  simp only [decide_eq_false_iff_not]
  exact h c (List.mem_reverse.mp hc)

/-- Stripping the padding from the encoding leaves the alphabet part. -/
theorem rstripEq_encode (bs : List Nat) (h : ∀ b ∈ bs, b < 256) :
    rstripEq (b64encodeBody bs) = b64encNoPad bs := by
  rw [b64encodeBody_eq]
  exact rstripEq_append_replicate _ _ (fun c hc => (b64encNoPad_ne bs h c hc).1)

/-- Length of the alphabet part modulo 4, tied to the padding count. -/
theorem b64encNoPad_length : ∀ bs : List Nat,
    ((b64encNoPad bs).length % 4 = 0 ∧ b64padCount bs = 0) ∨
    ((b64encNoPad bs).length % 4 = 3 ∧ b64padCount bs = 1) ∨
    ((b64encNoPad bs).length % 4 = 2 ∧ b64padCount bs = 2)
  | [] => Or.inl (by simp [b64encNoPad, b64padCount])
  | [_] => Or.inr (Or.inr (by simp [b64encNoPad, b64padCount]))
  | [_, _] => Or.inr (Or.inl (by simp [b64encNoPad, b64padCount]))
  | b0 :: b1 :: b2 :: rest => by
    have ih := b64encNoPad_length rest
    simp only [b64encNoPad, b64padCount, List.length_cons]
    omega

/-- The re-padding step of `verify` restores exactly the padding the
issuer stripped. -/
theorem repad_encNoPad (bs : List Nat) :
    repadB64 (b64encNoPad bs) = b64encodeBody bs := by
  rw [b64encodeBody_eq]
  unfold repadB64
  rcases b64encNoPad_length bs with ⟨h4, hp⟩ | ⟨h4, hp⟩ | ⟨h4, hp⟩ <;>
    rw [h4, hp] <;> simp

/-- Decoding one full group of four alphabet characters yields the three
encoded bytes. -/
theorem a2b_chunk (b0 b1 b2 : Nat) (h0 : b0 < 256) (h1 : b1 < 256)
    (h2 : b2 < 256) (rest : List Char) (acc : List Nat) :
    a2bBase64 (b64char (b0 / 4) :: b64char ((b0 % 4) * 16 + b1 / 16) ::
      b64char ((b1 % 16) * 4 + b2 / 64) :: b64char (b2 % 64) :: rest) acc [] 0 =
    a2bBase64 rest (acc ++ [b0, b1, b2]) [] 0 := by
  have hv1 := b64val_b64char ⟨b0 / 4, by omega⟩
  have hv2 := b64val_b64char ⟨(b0 % 4) * 16 + b1 / 16, by omega⟩
  have hv3 := b64val_b64char ⟨(b1 % 16) * 4 + b2 / 64, by omega⟩
  have hv4 := b64val_b64char ⟨b2 % 64, by omega⟩
  have hp1 := b64char_ne_pad ⟨b0 / 4, by omega⟩
  have hp2 := b64char_ne_pad ⟨(b0 % 4) * 16 + b1 / 16, by omega⟩
  have hp3 := b64char_ne_pad ⟨(b1 % 16) * 4 + b2 / 64, by omega⟩
  have hp4 := b64char_ne_pad ⟨b2 % 64, by omega⟩
  simp only [a2bBase64, if_neg hp1, if_neg hp2, if_neg hp3, if_neg hp4,
    hv1, hv2, hv3, hv4, List.nil_append, List.cons_append, b64emit4]
  have e1 : b0 / 4 * 4 + ((b0 % 4) * 16 + b1 / 16) / 16 = b0 := by omega
  have e2 : ((b0 % 4) * 16 + b1 / 16) % 16 * 16 +
      ((b1 % 16) * 4 + b2 / 64) / 4 = b1 := by omega
  have e3 : ((b1 % 16) * 4 + b2 / 64) % 4 * 64 + b2 % 64 = b2 := by omega
  rw [e1, e2, e3]

/-- Decoding the alphabet part plus its padding recovers the original
bytes. -/
theorem a2b_encode : ∀ bs : List Nat, (∀ b ∈ bs, b < 256) → ∀ acc,
    a2bBase64 (b64encNoPad bs ++ List.replicate (b64padCount bs) '=') acc [] 0 =
      some (acc ++ bs)
  | [], _, acc => by simp [b64encNoPad, b64padCount, a2bBase64]
  | [b0], h, acc => by
    have hb0 : b0 < 256 := h b0 (by simp)
    have hv1 := b64val_b64char ⟨b0 / 4, by omega⟩
    have hv2 := b64val_b64char ⟨(b0 % 4) * 16, by omega⟩
    have hp1 := b64char_ne_pad ⟨b0 / 4, by omega⟩
    have hp2 := b64char_ne_pad ⟨(b0 % 4) * 16, by omega⟩
    simp only [b64encNoPad, b64padCount, List.replicate, List.cons_append,
      List.nil_append, a2bBase64, if_neg hp1, if_neg hp2, hv1, hv2]
    simp [b64emit2]
    omega
  | [b0, b1], h, acc => by
    have hb0 : b0 < 256 := h b0 (by simp)
    have hb1 : b1 < 256 := h b1 (by simp)
    have hv1 := b64val_b64char ⟨b0 / 4, by omega⟩
    have hv2 := b64val_b64char ⟨(b0 % 4) * 16 + b1 / 16, by omega⟩
    have hv3 := b64val_b64char ⟨(b1 % 16) * 4, by omega⟩
    have hp1 := b64char_ne_pad ⟨b0 / 4, by omega⟩
    have hp2 := b64char_ne_pad ⟨(b0 % 4) * 16 + b1 / 16, by omega⟩
    have hp3 := b64char_ne_pad ⟨(b1 % 16) * 4, by omega⟩
    simp only [b64encNoPad, b64padCount, List.replicate, List.cons_append,
      List.nil_append, a2bBase64, if_neg hp1, if_neg hp2, if_neg hp3,
      hv1, hv2, hv3]
    simp [b64emit3]
    constructor <;> omega
  | b0 :: b1 :: b2 :: rest, h, acc => by
    have hb0 : b0 < 256 := h b0 (by simp)
    have hb1 : b1 < 256 := h b1 (by simp)
    have hb2 : b2 < 256 := h b2 (by simp)
    have hrest : ∀ b ∈ rest, b < 256 := fun b hb => h b (by simp [hb])
    have hchunk := a2b_chunk b0 b1 b2 hb0 hb1 hb2
      (b64encNoPad rest ++ List.replicate (b64padCount rest) '=') acc
    simp only [b64encNoPad, b64padCount, List.cons_append]
    rw [hchunk, a2b_encode rest hrest (acc ++ [b0, b1, b2])]
    simp

/-- Round trip of the token codec's base64 layer: re-padding and decoding
the stripped encoding recovers the payload bytes. -/
theorem b64_roundtrip (bs : List Nat) (h : ∀ b ∈ bs, b < 256) :
    urlsafe_b64decode (repadB64 (rstripEq (b64encodeBody bs))) = some bs := by
  rw [rstripEq_encode bs h, repad_encNoPad, b64encodeBody_eq]
  have := a2b_encode bs h []
  simpa [urlsafe_b64decode] using this

/-- Code-point round trip of `Char.ofNat` on ASCII. -/
theorem char_toNat_ofNat (n : Nat) (h : n < 128) : (Char.ofNat n).toNat = n := by
  have hv : n.isValidChar := Or.inl (by omega)
  simp [Char.ofNat, hv, Char.toNat, Char.ofNatAux, UInt32.toNat,
    BitVec.toNat_ofNatLt]

/-- Character order is code-point order. -/
theorem char_le_iff (c d : Char) : c ≤ d ↔ c.toNat ≤ d.toNat := by
  rw [Char.le_def, UInt32.le_def]
  rfl

/-- The fuelled UTF-8 decoder round trips on ASCII character lists given
enough fuel. -/
theorem utf8DecodeAux_encode_ascii : ∀ (cs : List Char) (fuel : Nat),
    (∀ c ∈ cs, c.toNat < 128) → (utf8Encode cs).length ≤ fuel →
    utf8DecodeAux fuel (utf8Encode cs) = some cs
  | [], fuel, _, _ => by
    cases fuel <;> rfl
  | c :: rest, fuel, h, hlen => by
    have hc : c.toNat < 128 := h c (List.mem_cons_self _ _)
    have henc : utf8Encode (c :: rest) = c.toNat :: utf8Encode rest := by
      simp only [utf8Encode, if_pos hc, List.cons_append, List.nil_append]
    rw [henc]
    rw [henc] at hlen
    simp only [List.length_cons] at hlen
    cases fuel with
    | zero => omega
    | succ f =>
      have hrest := utf8DecodeAux_encode_ascii rest f
        (fun d hd => h d (List.mem_cons_of_mem _ hd)) (by omega)
      simp only [utf8DecodeAux, if_pos hc, hrest]
      simp [Char.ofNat_toNat]

/-- UTF-8 round trips on ASCII character lists. -/
theorem utf8Decode_encode_ascii (cs : List Char)
    (h : ∀ c ∈ cs, c.toNat < 128) : utf8Decode (utf8Encode cs) = some cs :=
  utf8DecodeAux_encode_ascii cs (utf8Encode cs).length h le_rfl

/-- UTF-8 bytes of ASCII text are in byte range. -/
theorem utf8Encode_ascii_bytes : ∀ cs : List Char,
    (∀ c ∈ cs, c.toNat < 128) → ∀ b ∈ utf8Encode cs, b < 256
  | [], _, b, hb => by simp [utf8Encode] at hb
  | c :: rest, h, b, hb => by
    have hc : c.toNat < 128 := h c (List.mem_cons_self _ _)
    simp only [utf8Encode, if_pos hc, List.cons_append, List.nil_append,
      List.mem_cons] at hb
    rcases hb with rfl | hb
    · omega
    · exact utf8Encode_ascii_bytes rest
        (fun d hd => h d (List.mem_cons_of_mem _ hd)) b hb

/-- Code point of a rendered digit. -/
theorem digitChar_toNat (d : Nat) (h : d < 10) : (digitChar d).toNat = 48 + d :=
  char_toNat_ofNat _ (by omega)

/-- Rendered digits are decimal digit characters. -/
theorem digitChar_digit (d : Nat) (h : d < 10) :
    '0' ≤ digitChar d ∧ digitChar d ≤ '9' := by
  rw [char_le_iff, char_le_iff, digitChar_toNat d h]
  have h0 : ('0' : Char).toNat = 48 := rfl
  have h9 : ('9' : Char).toNat = 57 := rfl
  omega

/-- The fuelled decimal rendering: all digits, nonempty, and its value
folds back to the rendered number. -/
theorem natDigitsAux_spec : ∀ fuel n : Nat, n < fuel →
    (∀ c ∈ natDigitsAux fuel n, '0' ≤ c ∧ c ≤ '9') ∧
    natDigitsAux fuel n ≠ [] ∧
    (∀ acc : Nat,
      (natDigitsAux fuel n).foldl (fun a c => a * 10 + (c.toNat - 48)) acc =
        acc * 10 ^ (natDigitsAux fuel n).length + n) := by
  intro fuel
  induction fuel with
  | zero => intro n hn; omega
  | succ fuel ih =>
    intro n hn
    by_cases h10 : n < 10
    · simp only [natDigitsAux, if_pos h10]
      refine ⟨?_, by simp, ?_⟩
      · intro c hc
        simp only [List.mem_singleton] at hc
        subst hc
        exact digitChar_digit n h10
      · intro acc
        simp only [List.foldl_cons, List.foldl_nil, List.length_singleton,
          pow_one, digitChar_toNat n h10]
        omega
    · simp only [natDigitsAux, if_neg h10]
      obtain ⟨hd, hne, hfold⟩ := ih (n / 10) (by omega)
      refine ⟨?_, by simp, ?_⟩
      · intro c hc
        rcases List.mem_append.mp hc with hc | hc
        · exact hd c hc
        · simp only [List.mem_singleton] at hc
          subst hc
          exact digitChar_digit _ (by omega)
      · intro acc
        rw [List.foldl_append, hfold acc]
        simp only [List.foldl_cons, List.foldl_nil, List.length_append,
          List.length_singleton, digitChar_toNat _ (by omega : n % 10 < 10)]
        have hstep : 48 + n % 10 - 48 = n % 10 := by omega
        rw [hstep, pow_succ]
        have hring : (acc * 10 ^ (natDigitsAux fuel (n / 10)).length + n / 10) *
            10 + n % 10 =
            acc * (10 ^ (natDigitsAux fuel (n / 10)).length * 10) +
              (10 * (n / 10) + n % 10) := by ring
        rw [hring, Nat.div_add_mod]

/-- The rendering `natDigits`: all digits, nonempty, value folds back. -/
theorem natDigits_spec (n : Nat) :
    (∀ c ∈ natDigits n, '0' ≤ c ∧ c ≤ '9') ∧
    natDigits n ≠ [] ∧
    (∀ acc : Nat,
      (natDigits n).foldl (fun a c => a * 10 + (c.toNat - 48)) acc =
        acc * 10 ^ (natDigits n).length + n) :=
  natDigitsAux_spec (n + 1) n (by omega)

/-- Digit-run parsing of an all-digit list is a left fold. -/
theorem pyDigits_all_digits : ∀ l : List Char,
    (∀ c ∈ l, '0' ≤ c ∧ c ≤ '9') → ∀ acc,
    pyDigits l acc = some (l.foldl (fun a c => a * 10 + (c.toNat - 48)) acc)
  | [], _, acc => rfl
  | c :: rest, h, acc => by
    have hc := h c (List.mem_cons_self _ _)
    have hne : ¬ c = '_' := by
      intro hcon
      subst hcon
      exact absurd hc.2 (by decide)
    have hdv : digitVal c = some (c.toNat - 48) := by
      simp [digitVal, hc]
    rw [pyDigits.eq_def]
    simp only [if_neg hne, hdv, List.foldl_cons]
    exact pyDigits_all_digits rest (fun d hd => h d (List.mem_cons_of_mem _ hd)) _

/-- Magnitude parsing of a nonempty all-digit list. -/
theorem pyNat_digits (l : List Char) (h : ∀ c ∈ l, '0' ≤ c ∧ c ≤ '9')
    (hne : l ≠ []) :
    pyNat l = some (l.foldl (fun a c => a * 10 + (c.toNat - 48)) 0) := by
  cases l with
  | nil => exact absurd rfl hne
  | cons c rest =>
    have hc := h c (List.mem_cons_self _ _)
    have hdv : digitVal c = some (c.toNat - 48) := by
      simp [digitVal, hc]
    rw [pyNat.eq_def]
    simp only [hdv, List.foldl_cons]
    rw [pyDigits_all_digits rest (fun d hd => h d (List.mem_cons_of_mem _ hd))]
    simp

/-- Digit characters are not Python whitespace. -/
theorem digit_not_pyspace (c : Char) (h : '0' ≤ c ∧ c ≤ '9') :
    isPySpace c = false := by
  simp only [isPySpace, decide_eq_false_iff_not]
  rintro (rfl | rfl | rfl | rfl | rfl | rfl) <;> revert h <;> decide

/-- Stripping does nothing to whitespace-free text. -/
theorem pyStrip_eq_self (l : List Char) (h : ∀ c ∈ l, isPySpace c = false) :
    pyStrip l = l := by
  unfold pyStrip
  rw [dropWhile_eq_self_of_none _ l h]
  rw [dropWhile_eq_self_of_none _ l.reverse
    (fun c hc => h c (List.mem_reverse.mp hc))]
  exact List.reverse_reverse l

/-- Python `int()` of a rendered natural returns that natural. -/
theorem pyInt_natDigits (n : Nat) : pyInt (natDigits n) = some (n : Int) := by
  obtain ⟨hd, hne, hfold⟩ := natDigits_spec n
  have hstrip : pyStrip (natDigits n) = natDigits n :=
    pyStrip_eq_self _ (fun c hc => digit_not_pyspace c (hd c hc))
  rcases hl : natDigits n with _ | ⟨c, rest⟩
  · exact absurd hl hne
  · have hdl : ∀ d ∈ c :: rest, '0' ≤ d ∧ d ≤ '9' := hl ▸ hd
    have hc : '0' ≤ c ∧ c ≤ '9' := hdl c (List.mem_cons_self _ _)
    have hplus : ¬ c = '+' := by
      intro hcon
      subst hcon
      exact absurd hc.1 (by decide)
    have hminus : ¬ c = '-' := by
      intro hcon
      subst hcon
      exact absurd hc.1 (by decide)
    have hfold0 := hfold 0
    rw [hl] at hfold0
    simp only [zero_mul, zero_add] at hfold0
    have hstrip3 : pyStrip (c :: rest) = c :: rest := by
      rw [← hl]
      exact hstrip
    rw [pyInt.eq_def, hstrip3]
    simp only [if_neg hplus, if_neg hminus]
    rw [pyNat_digits (c :: rest) hdl (by simp), hfold0]
    rfl

/-- Splitting at the first colon of `l1 ++ ':' :: l2` when `l1` is
colon-free. -/
theorem splitColonOnce_append : ∀ (l1 l2 : List Char),
    (∀ c ∈ l1, c ≠ ':') → splitColonOnce (l1 ++ ':' :: l2) = some (l1, l2)
  | [], l2, _ => by simp [splitColonOnce]
  | c :: rest, l2, h => by
    have hc : ¬ c = ':' := h c (List.mem_cons_self _ _)
    simp only [List.cons_append, splitColonOnce, if_neg hc]
    have ih : splitColonOnce (rest.append (':' :: l2)) = some (rest, l2) :=
      splitColonOnce_append rest l2
        (fun d hd => h d (List.mem_cons_of_mem _ hd))
    rw [ih]
    rfl

/-- Digit characters are not the colon separator. -/
theorem digit_ne_colon (c : Char) (h : '0' ≤ c ∧ c ≤ '9') : c ≠ ':' := by
  intro hcon
  subst hcon
  exact absurd h.2 (by decide)

/-- `takeWhile` over a satisfying block followed by a failing head. -/
theorem takeWhile_all_append (p : Char → Bool) (y : Char) (hy : p y = false) :
    ∀ (xs ys : List Char), (∀ x ∈ xs, p x = true) →
    (xs ++ y :: ys).takeWhile p = xs
  | [], ys, _ => by simp [List.takeWhile_cons, hy]
  | x :: rest, ys, h => by
    have hx : p x = true := h x (List.mem_cons_self _ _)
    simp only [List.cons_append, List.takeWhile_cons, hx, if_true]
    rw [takeWhile_all_append p y hy rest ys
      (fun d hd => h d (List.mem_cons_of_mem _ hd))]

/-- `dropWhile` over a satisfying block followed by a failing head. -/
theorem dropWhile_all_append (p : Char → Bool) (y : Char) (hy : p y = false) :
    ∀ (xs ys : List Char), (∀ x ∈ xs, p x = true) →
    (xs ++ y :: ys).dropWhile p = y :: ys
  | [], ys, _ => by simp [List.dropWhile_cons, hy]
  | x :: rest, ys, h => by
    have hx : p x = true := h x (List.mem_cons_self _ _)
    simp only [List.cons_append, List.dropWhile_cons, hx, if_true]
    exact dropWhile_all_append p y hy rest ys
      (fun d hd => h d (List.mem_cons_of_mem _ hd))

/-- Python `rsplit(".", 1)` of `l1 ++ "." ++ l2` splits at that dot when
`l2` is dot-free (it is the last dot). -/
theorem rsplitDotOnce_append (l1 l2 : List Char) (h : ∀ c ∈ l2, c ≠ '.') :
    rsplitDotOnce (l1 ++ '.' :: l2) = (l1, l2) := by
  have hrev : (l1 ++ '.' :: l2).reverse = l2.reverse ++ '.' :: l1.reverse := by
    simp
  have hall : ∀ c ∈ l2.reverse, (fun c => ¬ c = '.' : Char → Bool) c = true := by
    intro c hc
    simp [h c (List.mem_reverse.mp hc)]
  have hd := dropWhile_all_append (fun c => ¬ c = '.') '.' (by simp)
    l2.reverse l1.reverse hall
  have ht := takeWhile_all_append (fun c => ¬ c = '.') '.' (by simp)
    l2.reverse l1.reverse hall
  simp only [rsplitDotOnce, hrev, hd, ht]
  simp

/-- All characters of the rendered `"{uid}:{ts}"` payload are ASCII. -/
theorem sessionPayload_ascii (uid ts : Nat) :
    ∀ c ∈ natDigits uid ++ ':' :: natDigits ts, c.toNat < 128 := by
  intro c hc
  rcases List.mem_append.mp hc with hc1 | hc2
  · have hle := (char_le_iff c '9').mp ((natDigits_spec uid).1 c hc1).2
    exact lt_of_le_of_lt hle (by decide)
  · rcases List.mem_cons.mp hc2 with rfl | hc3
    · decide
    · have hle := (char_le_iff c '9').mp ((natDigits_spec ts).1 c hc3).2
      exact lt_of_le_of_lt hle (by decide)

/-- The session payload bytes are in byte range. -/
theorem sessionPayload_bytes (uid ts : Nat) :
    ∀ b ∈ sessionPayload uid ts, b < 256 :=
  utf8Encode_ascii_bytes _ (sessionPayload_ascii uid ts)

/-- Strict UTF-8 decoding of the session payload recovers its text. -/
theorem utf8Decode_sessionPayload (uid ts : Nat) :
    utf8Decode (sessionPayload uid ts) =
      some (natDigits uid ++ ':' :: natDigits ts) :=
  utf8Decode_encode_ascii _ (sessionPayload_ascii uid ts)

/-- Splitting the session payload text at its colon. -/
theorem splitColon_sessionChars (uid ts : Nat) :
    splitColonOnce (natDigits uid ++ ':' :: natDigits ts) =
      some (natDigits uid, natDigits ts) :=
  splitColonOnce_append _ _
    (fun c hc => digit_ne_colon c ((natDigits_spec uid).1 c hc))

/-- The guard of `verify_session_token` passes on any dotted token. -/
theorem verify_guard (enc sig : List Char) :
    ¬ (enc ++ '.' :: sig = [] ∨ '.' ∉ enc ++ '.' :: sig) := by
  push_neg
  exact ⟨by simp, by simp⟩

set_option maxHeartbeats 1000000 in
/-- `verify_session_token` on a token issued by `create_session_token`
reduces to the age check (provided the hexdigest is dot-free, as real
hexdigests are). -/
theorem verify_create (mac : List Nat → String) (uid ts : Nat) (now : Int)
    (hdot : '.' ∉ (mac (sessionPayload uid ts)).data) :
    verify_session_token mac (create_session_token mac uid ts) now =
      if 14 * 24 * 3600 < |now - (ts : Int)| then none
      else some (uid : Int) := by
  have hbytes := sessionPayload_bytes uid ts
  have hsig : ∀ c ∈ (mac (sessionPayload uid ts)).data, c ≠ '.' := by
    intro c hc hcon
    subst hcon
    exact hdot hc
  have htok : create_session_token mac uid ts =
      rstripEq (b64encodeBody (sessionPayload uid ts)) ++ '.' ::
        (mac (sessionPayload uid ts)).data := rfl
  rw [htok]
  simp only [verify_session_token, if_neg (verify_guard _ _),
    rsplitDotOnce_append _ _ hsig, b64_roundtrip _ hbytes,
    utf8Decode_sessionPayload, splitColon_sessionChars, pyInt_natDigits]
  simp

/-- `verify_session_token` rejects any dotted token whose decoded payload
fails the signature comparison. -/
theorem verify_sig_mismatch (mac : List Nat → String) (enc sig : List Char)
    (now : Int) (hsig : ∀ c ∈ sig, c ≠ '.')
    (hmis : ∀ p, urlsafe_b64decode (repadB64 enc) = some p →
      ¬ (mac p).data = sig) :
    verify_session_token mac (enc ++ '.' :: sig) now = none := by
  simp only [verify_session_token, if_neg (verify_guard _ _),
    rsplitDotOnce_append _ _ hsig]
  cases hdec : urlsafe_b64decode (repadB64 enc) with
  | none => rfl
  | some p => simp [hmis p hdec]

/-- C4 (amended): a token issued for user `u` at time `ts` verifies to
`u` at any `now` within 14 days of issuance, and is rejected once
`now - ts` exceeds 14 days; replacing the signature part with any other
dot-free string is rejected, and replacing the encoded-payload part with
anything that no longer decodes to the original payload bytes is rejected
(under a collision-free hexdigest). The claim's "a token whose characters
have been altered returns invalid" does not hold for every alteration:
the trailing bits of the final base64 character are discarded by the
lenient decoder, so some single-character payload alterations decode to
the same bytes and still verify (see the counterexample). -/
theorem c4_token_codec (mac : List Nat → String) (uid ts : Nat)
    (now now2 : Int) (hdot : '.' ∉ (mac (sessionPayload uid ts)).data) :
    ((ts : Int) ≤ now → now - ts ≤ 14 * 24 * 3600 →
      verify_session_token mac (create_session_token mac uid ts) now =
        some (uid : Int)) ∧
    (14 * 24 * 3600 < now2 - ts →
      verify_session_token mac (create_session_token mac uid ts) now2 =
        none) ∧
    (∀ sig2 : List Char, (∀ c ∈ sig2, c ≠ '.') →
      sig2 ≠ (mac (sessionPayload uid ts)).data →
      verify_session_token mac
        (rstripEq (b64encodeBody (sessionPayload uid ts)) ++ '.' :: sig2)
        now = none) ∧
    (∀ enc2 : List Char,
      urlsafe_b64decode (repadB64 enc2) ≠ some (sessionPayload uid ts) →
      (∀ p, (mac p).data = (mac (sessionPayload uid ts)).data →
        p = sessionPayload uid ts) →
      verify_session_token mac
        (enc2 ++ '.' :: (mac (sessionPayload uid ts)).data) now = none) := by
  refine ⟨fun h1 h2 => ?_, fun h3 => ?_, fun sig2 hs2 hne => ?_,
    fun enc2 hdec hinj => ?_⟩
  · have habs : ¬ (14 * 24 * 3600 : Int) < |now - (ts : Int)| := by
      rw [abs_of_nonneg (by omega)]
      omega
    rw [verify_create mac uid ts now hdot, if_neg habs]
  · have habs : (14 * 24 * 3600 : Int) < |now2 - (ts : Int)| :=
      lt_of_lt_of_le h3 (le_abs_self _)
    rw [verify_create mac uid ts now2 hdot, if_pos habs]
  · refine verify_sig_mismatch mac _ sig2 now hs2 ?_
    intro p hp
    rw [b64_roundtrip _ (sessionPayload_bytes uid ts)] at hp
    injection hp with hp2
    subst hp2
    exact fun hcon => hne hcon.symm
  · refine verify_sig_mismatch mac enc2 _ now
      (fun c hc hcon => by subst hcon; exact hdot hc) ?_
    intro p hp hmac
    rw [hinj p hmac] at hp
    exact hdec hp

/-- Witness for C4: the token for user 42 issued at 1700000000 under
`demoMac` verifies 100 seconds later and is rejected one second past the
14-day window. -/
theorem c4_witness :
    verify_session_token demoMac (create_session_token demoMac 42 1700000000)
      1700000100 = some 42 ∧
    verify_session_token demoMac (create_session_token demoMac 42 1700000000)
      (1700000000 + 14 * 24 * 3600 + 1) = none := by
  have h := c4_token_codec demoMac 42 1700000000 1700000100
    (1700000000 + 14 * 24 * 3600 + 1) (by decide)
  exact ⟨h.1 (by decide) (by decide), h.2.1 (by decide)⟩

/-- Counterexample for C4's "verify of a token whose characters have been
altered returns invalid": altering one character of `demoToken42` (the
final character of its payload encoding, `A` to `B`) yields a different
token whose low base64 bits are discarded by the lenient decoder, so it
decodes to the same payload and still verifies to user 42. -/
theorem c4_counterexample :
    demoToken42Altered = demoToken42.set 17 'B' ∧
    demoToken42Altered ≠ demoToken42 ∧
    verify_session_token demoMac demoToken42Altered 1700000000 = some 42 := by
  refine ⟨by decide, by decide, by decide⟩

end Sim